import Mathlib

/-! The pinning pipeline of gha-freeze.

A shallow embedding of the workflow parser (`internal/workflow/parser.go`),
the replacement engine (`internal/workflow/replacer.go`), the version resolver
(`internal/github/resolver.go`, `ratelimit.go`) and the orchestrating state
machine (`internal/tui/update.go`).

Go strings are modelled as lists of characters.  For well-formed UTF-8 text a
substring test or replacement on bytes and on code points agree, since UTF-8 is
self-synchronising.  An `error` value is `Option Str`: `none` is `nil`, and
`some msg` is an error whose `Error()` text is `msg`.
-/

namespace GhaFreeze

/-! ## Go strings -/

abbrev Str := List Char

/-- Go `strings.Contains(s, substr)`. -/
def Contains : Str → Str → Bool
  | [], substr => substr.isEmpty
  | c :: s, substr => substr.isPrefixOf (c :: s) || Contains s substr

/-- Go `strings.Replace(s, old, new, 1)`: the leftmost occurrence of `old` in
`s` is replaced by `new`; without an occurrence `s` is returned. -/
def Replace1 : Str → Str → Str → Str
  | [], old, new => if old.isEmpty then new else []
  | c :: s, old, new =>
    if old.isPrefixOf (c :: s) then new ++ (c :: s).drop old.length
    else c :: Replace1 s old new

/-- Go `strings.Split(s, "\n")`: always at least one element. -/
def Split : Str → List Str
  | [] => [[]]
  | c :: cs =>
    if c = '\n' then [] :: Split cs
    else
      match Split cs with
      | [] => [[c]]
      | l :: ls => (c :: l) :: ls

/-- Go `strings.Join(elems, "\n")`. -/
def Join : List Str → Str
  | [] => []
  | [l] => l
  | l :: l' :: ls => l ++ '\n' :: Join (l' :: ls)

/-- Go `unicode.IsSpace`. -/
def isSpace (c : Char) : Bool :=
  let n := c.toNat
  (9 ≤ n && n ≤ 13) || n = 32 || n = 0x85 || n = 0xA0 || n = 0x1680 ||
  (0x2000 ≤ n && n ≤ 0x200A) || n = 0x2028 || n = 0x2029 || n = 0x202F ||
  n = 0x205F || n = 0x3000

/-- Go `strings.TrimSpace`. -/
def TrimSpace (s : Str) : Str :=
  ((s.dropWhile isSpace).reverse.dropWhile isSpace).reverse

/-- Split at the first occurrence of `c`: what precedes it and what follows. -/
def cut (c : Char) : Str → Option (Str × Str)
  | [] => none
  | x :: xs =>
    if x = c then some ([], xs)
    else
      match cut c xs with
      | none => none
      | some (a, b) => some (x :: a, b)

/-! ## internal/workflow/parser.go -/

structure ActionReference where
  Owner : Str
  Repo : Str
  Ref : Str
  Line : Int
  FilePath : Str
  FullUses : Str
  IsPinned : Bool
deriving DecidableEq, Repr

/-- The submatches of `^([^/]+)/([^@]+)@(.+)$` (`FindStringSubmatch`), `none`
when the text does not match.  Group 1 cannot hold a `/`, so it ends at the first
`/`; group 2 cannot hold an `@`, so it ends at the first `@` after that; group 3
is the rest, and `.` does not match a line feed. -/
def actionRegex (s : Str) : Option (Str × Str × Str) :=
  match cut '/' s with
  | none => none
  | some (owner, rest) =>
    match cut '@' rest with
    | none => none
    | some (repo, ref) =>
      if owner.isEmpty || repo.isEmpty || ref.isEmpty || ref.contains '\n' then none
      else some (owner, repo, ref)

/-- One character of the class `[a-f0-9]`. -/
def isLowerHex (c : Char) : Bool :=
  ('a' ≤ c && c ≤ 'f') || ('0' ≤ c && c ≤ '9')

/-- Exactly `n` characters of `[a-f0-9]` and then the end of the text. -/
def matchHexCount : Nat → Str → Bool
  | 0, [] => true
  | 0, _ :: _ => false
  | _ + 1, [] => false
  | n + 1, c :: cs => isLowerHex c && matchHexCount n cs

/-- The regular expression `^[a-f0-9]{40}$` (`MatchString`). -/
def shaRegex (s : Str) : Bool := matchHexCount 40 s

def parseActionString (uses filePath : Str) (lineNum : Int) : Option ActionReference :=
  let uses := TrimSpace uses
  match actionRegex uses with
  | none => none
  | some (owner, repo, ref) =>
    let isPinned := shaRegex ref
    some
      { Owner := owner
        Repo := repo
        Ref := ref
        Line := lineNum
        FilePath := filePath
        FullUses := uses
        IsPinned := isPinned }

/-- The first line (counted from 1) holding both `uses:` and the text, else 0. -/
def findLineNumber (lines : List Str) (searchText : Str) : Int :=
  match lines.findIdx? (fun line => Contains line "uses:".toList && Contains line searchText) with
  | some i => i + 1
  | none => 0

/-! ## internal/workflow/replacer.go -/

structure Replacement where
  Action : ActionReference
  SHA : Str
  Version : Str
deriving DecidableEq, Repr

/-- The text `fmt.Sprintf("%s/%s@%s", Owner, Repo, Ref)`. -/
def oldUses (repl : Replacement) : Str :=
  repl.Action.Owner ++ '/' :: repl.Action.Repo ++ '@' :: repl.Action.Ref

/-- The text `fmt.Sprintf("%s/%s@%s # %s", Owner, Repo, SHA, Version)`. -/
def newUses (repl : Replacement) : Str :=
  repl.Action.Owner ++ '/' :: repl.Action.Repo ++ '@' :: repl.SHA ++ ' ' :: '#' :: ' ' :: repl.Version

/-- The body of the inner loop for one line. -/
def replaceLine (repl : Replacement) (line : Str) : Str :=
  if Contains line repl.Action.FullUses then Replace1 line (oldUses repl) (newUses repl)
  else line

/-- The two nested loops: for each replacement in turn, every line is visited
once; an assignment to `lines[i]` is seen by the later replacements only. -/
def replaceLines (replacements : List Replacement) (lines : List Str) : List Str :=
  replacements.foldl (fun ls repl => ls.map (replaceLine repl)) lines

/-- Files by path: `files p = none` when `p` cannot be read, and `writable p`
tells whether `os.WriteFile` on `p` succeeds. -/
structure FileSystem where
  files : Str → Option Str
  writable : Str → Bool

def FileSystem.write (fs : FileSystem) (path content : Str) : FileSystem :=
  { fs with files := fun p => if p = path then some content else fs.files p }

def ReplaceActionsInFile (fs : FileSystem) (filePath : Str)
    (replacements : List Replacement) : Except Str FileSystem :=
  match fs.files filePath with
  | none => .error "failed to read file".toList
  | some content =>
    let lines := Split content
    let lines := replaceLines replacements lines
    let newContent := Join lines
    if fs.writable filePath then .ok (fs.write filePath newContent)
    else .error "failed to write file".toList

/-! ## internal/github/ratelimit.go, resolver.go -/

def IsRateLimitError (err : Option Str) : Bool :=
  match err with
  | none => false
  | some errMsg => Contains errMsg "rate limit".toList || Contains errMsg "403".toList

structure ResolvedAction where
  SHA : Str
  Version : Str
  Error : Option Str
deriving DecidableEq, Repr

/-- What `client.Git.GetRef` returns: a reference whose object SHA may be
missing, or an error together with the HTTP status of the response when there is
a response. -/
inductive GetRefResult where
  | ok (sha : Option Str)
  | fail (status : Option Nat) (err : Str)
deriving DecidableEq, Repr

/-- What `client.Repositories.GetCommit` returns: a commit whose SHA may be
missing, or an error. -/
inductive GetCommitResult where
  | ok (sha : Option Str)
  | fail (err : Str)
deriving DecidableEq, Repr

/-- The two GitHub endpoints the resolver calls.  A call is made with the
client's token and may change the state `σ` of the outside world. -/
structure GitHubAPI (σ : Type) where
  GetRef : σ → Str → Str → Str → Str → GetRefResult × σ
  GetCommit : σ → Str → Str → Str → Str → GetCommitResult × σ

structure Client where
  token : Str
deriving DecidableEq, Repr

def Client.SetToken (_c : Client) (token : Str) : Client :=
  { token := token }

def resolveAsBranch {σ : Type} (api : GitHubAPI σ) (c : Client) (w : σ)
    (owner repo branch : Str) : ResolvedAction × σ :=
  match api.GetCommit w c.token owner repo branch with
  | (.fail err, w') => ({ SHA := [], Version := [], Error := some err }, w')
  | (.ok (some sha), w') => ({ SHA := sha, Version := branch, Error := none }, w')
  | (.ok none, w') =>
    ({ SHA := [], Version := [], Error := some "unable to resolve reference".toList }, w')

def ResolveAction {σ : Type} (api : GitHubAPI σ) (c : Client) (w : σ)
    (owner repo ref : Str) : ResolvedAction × σ :=
  if "v".toList.isPrefixOf ref then
    let tagRef := "tags/".toList ++ ref
    match api.GetRef w c.token owner repo tagRef with
    | (.fail status err, w') =>
      if status = some 404 then resolveAsBranch api c w' owner repo ref
      else ({ SHA := [], Version := [], Error := some err }, w')
    | (.ok (some sha), w') => ({ SHA := sha, Version := ref, Error := none }, w')
    | (.ok none, w') => resolveAsBranch api c w' owner repo ref
  else resolveAsBranch api c w owner repo ref

/-! ## internal/tui/model.go -/

inductive State where
  | StateLoading
  | StateFileSelection
  | StateScanning
  | StateActionReview
  | StateResolving
  | StateConfirming
  | StateProcessing
  | StateComplete
  | StateBackupList
  | StateRestoring
  | StateError
  | StateRateLimited
deriving DecidableEq, Repr

structure workflowFileItem where
  title : Str
  checked : Bool
deriving DecidableEq, Repr

structure BackupInfo where
  Path : Str
  Timestamp : Str
  FileCount : Int
deriving DecidableEq, Repr

structure backupItem where
  info : BackupInfo
deriving DecidableEq, Repr

/-- The part of a `list.Model` the program reads: its items and its cursor. -/
structure ListModel (α : Type) where
  items : List α
  index : Nat
deriving DecidableEq, Repr

/-- The session.  `githubClient` is a pointer in the source, so a `SetToken`
made by a handler shows in the model it returns.  The spinner is left out. -/
structure Model where
  state : State
  workflowFiles : List Str
  selectedFiles : List Str
  fileList : ListModel workflowFileItem
  backupList : ListModel backupItem
  actions : List ActionReference
  replacements : List Replacement
  err : Option Str
  githubClient : Client
  backupPath : Str
  totalCount : Int
  dryRun : Bool
  noBackup : Bool
  message : Str
  tokenPrompt : Bool
  tokenInput : Str
  version : Str
deriving DecidableEq, Repr

inductive Msg where
  | KeyMsg (key : Str)
  | loadingCompleteMsg (files : List Str) (err : Option Str)
  | scanCompleteMsg (actions : List ActionReference) (err : Option Str)
  | resolveCompleteMsg (replacements : List Replacement) (err : Option Str)
  | processCompleteMsg (backupPath : Str) (err : Option Str)
  | rateLimitMsg
  | backupListMsg (backups : List BackupInfo) (err : Option Str)
  | restoreCompleteMsg (err : Option Str)
  | spinnerTickMsg
  | otherMsg
deriving DecidableEq, Repr

/-- The commands a handler returns.  A closure made by `m.scanFiles()`,
`m.resolveActions()` or `m.processActions()` holds the model it was made from. -/
inductive Cmd where
  | nil
  | Quit
  | Batch (a b : Cmd)
  | spinnerTick
  | listCmd
  | scanFiles (m : Model)
  | resolveActions (m : Model)
  | processActions (m : Model)
  | loadBackupList
  | restoreBackup (path : Str)
deriving DecidableEq, Repr

/-- What a handler calls outside this package while it runs: the list widget's
own `Update`, and `backup.DeleteBackup`. -/
structure Env where
  fileListUpdate : ListModel workflowFileItem → Msg → ListModel workflowFileItem × Cmd
  backupListUpdate : ListModel backupItem → Msg → ListModel backupItem × Cmd
  DeleteBackup : Str → Option Str

/-! ## internal/tui/update.go -/

def getSelectedFiles (m : Model) : List Str :=
  let selected := (m.fileList.items.filter (fun item => item.checked)).map (fun item => item.title)
  if selected.length = 0 then m.workflowFiles else selected

def toggleFileSelection (m : Model) : Model × Cmd :=
  let selectedIdx := m.fileList.index
  match m.fileList.items.get? selectedIdx with
  | some wfItem =>
    ({ m with fileList :=
        { m.fileList with
          items := m.fileList.items.set selectedIdx { wfItem with checked := !wfItem.checked } } },
      Cmd.nil)
  | none => (m, Cmd.nil)

def handleEnterKey (m : Model) : Model × Cmd :=
  match m.state with
  | .StateFileSelection =>
    let m := { m with selectedFiles := getSelectedFiles m }
    if m.selectedFiles.length = 0 then
      ({ m with err := some "no files selected".toList, state := .StateError }, Cmd.nil)
    else
      let m := { m with state := .StateScanning }
      (m, Cmd.Batch Cmd.spinnerTick (Cmd.scanFiles m))
  | .StateActionReview =>
    if m.actions.length = 0 then
      ({ m with message := "No actions to pin".toList, state := .StateComplete }, Cmd.nil)
    else
      let m := { m with state := .StateResolving }
      (m, Cmd.Batch Cmd.spinnerTick (Cmd.resolveActions m))
  | .StateConfirming =>
    let m := { m with state := .StateProcessing }
    (m, Cmd.Batch Cmd.spinnerTick (Cmd.processActions m))
  | .StateRateLimited => ({ m with tokenPrompt := true }, Cmd.nil)
  | _ => (m, Cmd.nil)

def handleLoadingComplete (m : Model) (files : List Str) (err : Option Str) : Model × Cmd :=
  match err with
  | some e => ({ m with err := some e, state := .StateError }, Cmd.nil)
  | none =>
    let m := { m with workflowFiles := files }
    if m.workflowFiles.length = 0 then
      ({ m with
          err := some "no workflow files found in .github/workflows".toList
          state := .StateError }, Cmd.nil)
    else
      let items := m.workflowFiles.map (fun f => ({ title := f, checked := true } : workflowFileItem))
      ({ m with fileList := { items := items, index := 0 }, state := .StateFileSelection }, Cmd.nil)

def handleScanComplete (m : Model) (actions : List ActionReference) (err : Option Str) :
    Model × Cmd :=
  match err with
  | some e => ({ m with err := some e, state := .StateError }, Cmd.nil)
  | none =>
    let unpinnedActions :=
      actions.foldl (fun acc action => if !action.IsPinned then acc ++ [action] else acc) []
    ({ m with actions := unpinnedActions, state := .StateActionReview }, Cmd.nil)

def handleResolveComplete (m : Model) (replacements : List Replacement) (err : Option Str) :
    Model × Cmd :=
  match err with
  | some e =>
    if IsRateLimitError (some e) then
      ({ m with state := .StateRateLimited, err := some e }, Cmd.nil)
    else ({ m with err := some e, state := .StateError }, Cmd.nil)
  | none =>
    let m := { m with replacements := replacements }
    ({ m with totalCount := m.replacements.length, state := .StateConfirming }, Cmd.nil)

def handleProcessComplete (m : Model) (backupPath : Str) (err : Option Str) : Model × Cmd :=
  match err with
  | some e => ({ m with err := some e, state := .StateError }, Cmd.nil)
  | none => ({ m with backupPath := backupPath, state := .StateComplete }, Cmd.nil)

def handleRateLimit (m : Model) : Model × Cmd :=
  ({ m with state := .StateRateLimited }, Cmd.nil)

def handleDeleteBackup (env : Env) (m : Model) : Model × Cmd :=
  if m.backupPath ≠ [] then
    match env.DeleteBackup m.backupPath with
    | some e => ({ m with message := "Failed to delete backup: ".toList ++ e }, Cmd.nil)
    | none =>
      ({ m with message := "Deleted backup: ".toList ++ m.backupPath, backupPath := [] }, Cmd.nil)
  else (m, Cmd.nil)

def loadBackupList (m : Model) : Model × Cmd :=
  (m, Cmd.loadBackupList)

def handleBackupList (m : Model) (backups : List BackupInfo) (err : Option Str) : Model × Cmd :=
  match err with
  | some e => ({ m with err := some e, state := .StateError }, Cmd.nil)
  | none =>
    if backups.length = 0 then
      ({ m with message := "No backups found".toList, state := .StateComplete }, Cmd.nil)
    else
      let items := backups.map (fun b => ({ info := b } : backupItem))
      ({ m with backupList := { items := items, index := 0 }, state := .StateBackupList }, Cmd.nil)

def handleRestoreBackup (m : Model) : Model × Cmd :=
  match m.backupList.items.get? m.backupList.index with
  | some bItem =>
    ({ m with state := .StateRestoring }, Cmd.Batch Cmd.spinnerTick (Cmd.restoreBackup bItem.info.Path))
  | none => (m, Cmd.nil)

def handleRestoreComplete (m : Model) (err : Option Str) : Model × Cmd :=
  match err with
  | some e => ({ m with err := some e, state := .StateError }, Cmd.nil)
  | none =>
    ({ m with message := "Backup restored successfully!".toList, state := .StateComplete }, Cmd.nil)

/-- The length of the key name in bytes, as `len(msg.String())` counts it. -/
def byteLen (s : Str) : Nat :=
  (s.map Char.utf8Size).sum

/-- The last block of `handleKeyPress`: typing into the token prompt.  The
input is built from one-byte keys, so cutting its last byte cuts its last
character. -/
def tokenPromptKey (m : Model) (key : Str) : Model × Cmd :=
  if m.state = .StateRateLimited ∧ m.tokenPrompt = true then
    if key = "enter".toList then
      let m := { m with githubClient := m.githubClient.SetToken m.tokenInput }
      let m := { m with state := .StateActionReview }
      let m := { m with tokenPrompt := false }
      (m, Cmd.resolveActions m)
    else if key = "backspace".toList then
      if m.tokenInput.length > 0 then ({ m with tokenInput := m.tokenInput.dropLast }, Cmd.nil)
      else (m, Cmd.nil)
    else if byteLen key = 1 then ({ m with tokenInput := m.tokenInput ++ key }, Cmd.nil)
    else (m, Cmd.nil)
  else (m, Cmd.nil)

def handleKeyPress (env : Env) (m : Model) (key : Str) : Model × Cmd :=
  if m.state = .StateComplete then
    if key = "d".toList ∧ m.backupPath ≠ [] then handleDeleteBackup env m
    else if key = "d".toList then (m, Cmd.nil)
    else if key = "k".toList ∨ key = "q".toList then (m, Cmd.Quit)
    else if key = "r".toList then loadBackupList m
    else (m, Cmd.nil)
  else if m.state = .StateBackupList then
    if key = "enter".toList then handleRestoreBackup m
    else if key = "q".toList ∨ key = "esc".toList then ({ m with state := .StateComplete }, Cmd.nil)
    else
      let (l, cmd) := env.backupListUpdate m.backupList (Msg.KeyMsg key)
      ({ m with backupList := l }, cmd)
  else if m.state = .StateError then
    if key = "q".toList ∨ key = "ctrl+c".toList then (m, Cmd.Quit) else (m, Cmd.nil)
  else if key = "ctrl+c".toList ∨ key = "q".toList then
    if m.state ≠ .StateProcessing then (m, Cmd.Quit) else tokenPromptKey m key
  else if key = "enter".toList then handleEnterKey m
  else if key = " ".toList then
    if m.state = .StateFileSelection then toggleFileSelection m else tokenPromptKey m key
  else tokenPromptKey m key

def Update (env : Env) (m : Model) (msg : Msg) : Model × Cmd :=
  match msg with
  | .KeyMsg key =>
    if m.state = .StateFileSelection then
      if key = "enter".toList then handleEnterKey m
      else if key = "ctrl+c".toList ∨ key = "q".toList then (m, Cmd.Quit)
      else if key = " ".toList then toggleFileSelection m
      else
        let (l, cmd) := env.fileListUpdate m.fileList (Msg.KeyMsg key)
        ({ m with fileList := l }, cmd)
    else handleKeyPress env m key
  | .loadingCompleteMsg files err => handleLoadingComplete m files err
  | .scanCompleteMsg actions err => handleScanComplete m actions err
  | .resolveCompleteMsg replacements err => handleResolveComplete m replacements err
  | .processCompleteMsg backupPath err => handleProcessComplete m backupPath err
  | .rateLimitMsg => handleRateLimit m
  | .backupListMsg backups err => handleBackupList m backups err
  | .restoreCompleteMsg err => handleRestoreComplete m err
  | .spinnerTickMsg => (m, Cmd.spinnerTick)
  | .otherMsg =>
    if m.state = .StateFileSelection then
      let (l, cmd) := env.fileListUpdate m.fileList Msg.otherMsg
      ({ m with fileList := l }, cmd)
    else (m, Cmd.nil)

/-- One call of `ResolveAction`, by its arguments. -/
structure ResolveCall where
  owner : Str
  repo : Str
  ref : Str
deriving DecidableEq, Repr

/-- What running the command made by `m.resolveActions()` gives: the message
it returns, the outside world it leaves, and the calls of `ResolveAction` it made,
oldest first. -/
structure ResolvePass (σ : Type) where
  msg : Msg
  world : σ
  calls : List ResolveCall

/-- The loop of `resolveActions` over the actions still to visit, from the
replacements, the last error and the calls so far. -/
def resolveLoop {σ : Type} (api : GitHubAPI σ) (c : Client) :
    List ActionReference → σ → List Replacement → Option Str → List ResolveCall → ResolvePass σ
  | [], w, replacements, lastError, calls =>
    if replacements.length = 0 ∧ lastError ≠ none then
      { msg := Msg.resolveCompleteMsg [] lastError, world := w, calls := calls }
    else { msg := Msg.resolveCompleteMsg replacements none, world := w, calls := calls }
  | action :: rest, w, replacements, lastError, calls =>
    let (resolved, w') := ResolveAction api c w action.Owner action.Repo action.Ref
    let calls := calls ++ [{ owner := action.Owner, repo := action.Repo, ref := action.Ref }]
    match resolved.Error with
    | some e =>
      if IsRateLimitError (some e) then { msg := Msg.rateLimitMsg, world := w', calls := calls }
      else resolveLoop api c rest w' replacements (some e) calls
    | none =>
      resolveLoop api c rest w'
        (replacements ++ [{ Action := action, SHA := resolved.SHA, Version := resolved.Version }])
        lastError calls

def resolveActions {σ : Type} (api : GitHubAPI σ) (m : Model) (w : σ) : ResolvePass σ :=
  resolveLoop api m.githubClient m.actions w [] none []

/-- The results `ResolveAction` gives when it is called for each action of the
list in turn, every call made in the world the call before it left. -/
def resolveResults {σ : Type} (api : GitHubAPI σ) (c : Client) :
    List ActionReference → σ → List ResolvedAction
  | [], _ => []
  | action :: rest, w =>
    let (resolved, w') := ResolveAction api c w action.Owner action.Repo action.Ref
    resolved :: resolveResults api c rest w'

/-! ## Reading a step line back

The workflow file is read by a YAML library.  For the round trip of a rewritten
line, the fragment of YAML that matters is a `uses:` key with its value on the
same line. -/

/-- The text after the first occurrence of `pat`. -/
def afterFirst (pat : Str) : Str → Option Str
  | [] => if pat.isEmpty then some [] else none
  | c :: s => if pat.isPrefixOf (c :: s) then some ((c :: s).drop pat.length) else afterFirst pat s

/-- The rest of a line after a quoted scalar: nothing, blanks, or blanks and a
`#` comment. -/
def blankOrComment (s : Str) : Bool :=
  match s with
  | [] => true
  | c :: _ =>
    (c = ' ' || c = '\t') &&
      (match s.dropWhile (fun x => x = ' ' || x = '\t') with
        | [] => true
        | d :: _ => d = '#')

/-- A plain scalar runs to the end of the line or to the blank that starts a
` #` comment. -/
def plainScalar : Str → Str
  | [] => []
  | c :: s =>
    if (c = ' ' || c = '\t') && (s.dropWhile (fun x => x = ' ' || x = '\t')).head? = some '#' then []
    else c :: plainScalar s

/-- The value YAML gives the key `uses` on a line `... uses: <scalar> [# comment]`:
the text between the quotes for a double-quoted scalar without escapes or a
single-quoted scalar without a doubled quote, the trimmed text before the
comment for a plain scalar, and `none` for a line outside this fragment. -/
def usesValue (line : Str) : Option Str :=
  match afterFirst "uses: ".toList line with
  | none => none
  | some rest =>
    match rest.dropWhile (fun x => x = ' ') with
    | [] => none
    | c :: t =>
      if c = '"' then
        match cut '"' t with
        | none => none
        | some (v, tail) => if v.contains '\\' || !blankOrComment tail then none else some v
      else if c = '\'' then
        match cut '\'' t with
        | none => none
        | some (v, tail) => if tail.head? = some '\'' || !blankOrComment tail then none else some v
      else
        let v := TrimSpace (plainScalar (c :: t))
        if v.isEmpty then none else some v

/-! ## Concrete inputs -/

def exampleSHA : Str := "8f4b7f84864484a7bf31766abe9204da3cbe65b3".toList

/-- What `parseActionString` returns for `actions/checkout@v4`. -/
def checkoutV4 : ActionReference :=
  { Owner := "actions".toList
    Repo := "checkout".toList
    Ref := "v4".toList
    Line := 1
    FilePath := "ci.yml".toList
    FullUses := "actions/checkout@v4".toList
    IsPinned := false }

/-- What `parseActionString` returns for `actions/setup-go@v5`. -/
def setupGoV5 : ActionReference :=
  { Owner := "actions".toList
    Repo := "setup-go".toList
    Ref := "v5".toList
    Line := 2
    FilePath := "ci.yml".toList
    FullUses := "actions/setup-go@v5".toList
    IsPinned := false }

/-- A workflow of three step lines. -/
def exampleWorkflow : Str :=
  ("      - uses: actions/checkout@v4\n" ++ "      - uses: actions/setup-go@v5\n" ++
    "      - run: make\n").toList

/-- The replacements of the two actions of `exampleWorkflow`. -/
def exampleReplacements : List Replacement :=
  [⟨checkoutV4, exampleSHA, "v4".toList⟩,
    ⟨setupGoV5, "0a12ed9d6a96ab950c8f026ed9f722fe0da7ef32".toList, "v5".toList⟩]

/-- What `parseActionString` returns for `actions/checkout` at a full SHA. -/
def pinnedCheckout : ActionReference :=
  { Owner := "actions".toList
    Repo := "checkout".toList
    Ref := exampleSHA
    Line := 1
    FilePath := "ci.yml".toList
    FullUses := "actions/checkout@8f4b7f84864484a7bf31766abe9204da3cbe65b3".toList
    IsPinned := true }

/-- A file system with the one file `ci.yml`, which can be written. -/
def exampleFS (content : Str) : FileSystem :=
  { files := fun p => if p = "ci.yml".toList then some content else none
    writable := fun _ => true }

/-- The content of `path` after a call that succeeded. -/
def writtenContent (r : Except Str FileSystem) (path : Str) : Option Str :=
  match r with
  | .ok fs => fs.files path
  | .error _ => none

/-- List widgets that ignore every message, and a `DeleteBackup` that succeeds. -/
def exampleEnv : Env :=
  { fileListUpdate := fun l _ => (l, Cmd.nil)
    backupListUpdate := fun l _ => (l, Cmd.nil)
    DeleteBackup := fun _ => none }

/-- A GitHub whose state counts the calls made: the second call is refused
with a rate-limit error, every other commit lookup finds a commit. -/
def exampleAPI : GitHubAPI Nat :=
  { GetRef := fun w _ _ _ _ => (GetRefResult.fail (some 404) "404 Not Found".toList, w + 1)
    GetCommit := fun w _ _ _ _ =>
      if w = 1 then (GetCommitResult.fail "403 API rate limit exceeded".toList, w + 1)
      else (GetCommitResult.ok (some exampleSHA), w + 1) }

def exampleAction (repo : Str) : ActionReference :=
  { Owner := "actions".toList
    Repo := repo
    Ref := "main".toList
    Line := 1
    FilePath := "ci.yml".toList
    FullUses := "actions/".toList ++ repo ++ "@main".toList
    IsPinned := false }

/-- A session in the given state that holds three unpinned actions. -/
def exampleModel (state : State) : Model :=
  { state := state
    workflowFiles := ["ci.yml".toList]
    selectedFiles := ["ci.yml".toList]
    fileList := { items := [{ title := "ci.yml".toList, checked := true }], index := 0 }
    backupList := { items := [], index := 0 }
    actions := [exampleAction "checkout".toList, exampleAction "cache".toList,
      exampleAction "setup-go".toList]
    replacements := []
    err := none
    githubClient := { token := [] }
    backupPath := []
    totalCount := 0
    dryRun := false
    noBackup := false
    message := []
    tokenPrompt := false
    tokenInput := []
    version := "dev".toList }

/-- An action is a parser output when `parseActionString` returns it for some text. -/
def ParserOutput (a : ActionReference) : Prop :=
  ∃ (uses filePath : Str) (lineNum : Int), parseActionString uses filePath lineNum = some a

/-- Two calls of `ReplaceActionsInFile` in a row, the second on the files the
first one left. -/
def replaceTwice (fs : FileSystem) (filePath : Str) (replacements : List Replacement) :
    Except Str FileSystem :=
  match ReplaceActionsInFile fs filePath replacements with
  | .ok fs' => ReplaceActionsInFile fs' filePath replacements
  | .error e => .error e

/-! ## What a resolution pass collects -/

/-- The replacements of the actions whose result has no error, in the order of
the actions, each with the SHA and version of its result. -/
def resolvedReplacements : List ActionReference → List ResolvedAction → List Replacement
  | action :: actions, resolved :: results =>
    match resolved.Error with
    | none =>
      { Action := action, SHA := resolved.SHA, Version := resolved.Version } ::
        resolvedReplacements actions results
    | some _ => resolvedReplacements actions results
  | _, _ => []

/-- The error of the last result that has one, `init` when none has. -/
def lastFailure (results : List ResolvedAction) (init : Option Str) : Option Str :=
  results.foldl (fun acc resolved => match resolved.Error with
    | some e => some e
    | none => acc) init

/-- A GitHub whose state counts the calls made: the second call finds nothing,
every other commit lookup finds a commit. -/
def exampleAPIOneMissing : GitHubAPI Nat :=
  { GetRef := fun w _ _ _ _ => (GetRefResult.fail (some 404) "404 Not Found".toList, w + 1)
    GetCommit := fun w _ _ _ _ =>
      if w = 1 then (GetCommitResult.fail "404 Not Found".toList, w + 1)
      else (GetCommitResult.ok (some exampleSHA), w + 1) }

/-- A GitHub that finds no commit: the call number `w` fails with its own message. -/
def exampleAPIAllMissing : GitHubAPI Nat :=
  { GetRef := fun w _ _ _ _ => (GetRefResult.fail (some 404) "404 Not Found".toList, w + 1)
    GetCommit := fun w _ _ _ _ =>
      (GetCommitResult.fail ("404 Not Found, call ".toList ++ (Nat.repr w).toList), w + 1) }

/-! ## The disk

A path is the list of its components: `.github/workflows/ci.yml` is
`[".github", "workflows", "ci.yml"]`, and the empty list is the empty path `""`.
`filepath.Join(dir, name)` appends the name and `filepath.Base` is the last
component.  The disk is the list of the entries of the working directory, and
the entries of a directory stand in the order in which `os.ReadDir` lists them. -/

abbrev DiskPath := List Str

inductive Node where
  | file (content : Str)
  | dir (entries : List (Str × Node))
deriving Repr

abbrev Disk := List (Str × Node)

def Node.isDir : Node → Bool
  | .file _ => false
  | .dir _ => true

/-- The entry of a listing with the given name. -/
def findEntry (name : Str) : List (Str × Node) → Option Node
  | [] => none
  | (n, node) :: rest => if n = name then some node else findEntry name rest

/-- The listing with the entry `name` replaced, or added at the end. -/
def setEntry (name : Str) (node : Node) : List (Str × Node) → List (Str × Node)
  | [] => [(name, node)]
  | (n, x) :: rest => if n = name then (name, node) :: rest else (n, x) :: setEntry name node rest

/-- What a path names on the disk; the empty path names nothing. -/
def lookup : List (Str × Node) → DiskPath → Option Node
  | _, [] => none
  | es, name :: rest =>
    match findEntry name es with
    | none => none
    | some node =>
      match rest with
      | [] => some node
      | _ :: _ =>
        match node with
        | .dir es' => lookup es' rest
        | .file _ => none

/-- `os.ReadDir`: the entries of a directory, `none` when the path is not one. -/
def readDir (d : Disk) (path : DiskPath) : Option (List (Str × Node)) :=
  match lookup d path with
  | some (.dir es) => some es
  | _ => none

/-- The content of a regular file, `none` when the path is not one. -/
def readFile (d : Disk) (path : DiskPath) : Option Str :=
  match lookup d path with
  | some (.file content) => some content
  | _ => none

/-- The disk after `f` has rewritten the listing of the directory at `path`
(the working directory for the empty list); `none` when there is no such
directory or `f` fails. -/
def modifyDir (f : List (Str × Node) → Option (List (Str × Node))) :
    List (Str × Node) → DiskPath → Option (List (Str × Node))
  | es, [] => f es
  | es, name :: rest =>
    match findEntry name es with
    | some (.dir es') =>
      match modifyDir f es' rest with
      | some es'' => some (setEntry name (.dir es'') es)
      | none => none
    | _ => none

/-- `os.Create` followed by writing `content`: the parent must be a directory
and the name must not be one; an existing file is truncated. -/
def createFile (d : Disk) (path : DiskPath) (content : Str) : Option Disk :=
  match path.getLast? with
  | none => none
  | some name =>
    modifyDir
      (fun es =>
        match findEntry name es with
        | some (.dir _) => none
        | _ => some (setEntry name (.file content) es))
      d path.dropLast

/-- `os.MkdirAll`: the directories along the path are made when missing; it
fails when a component is a regular file. -/
def mkdirAll : List (Str × Node) → DiskPath → Option (List (Str × Node))
  | es, [] => some es
  | es, name :: rest =>
    match findEntry name es with
    | some (.file _) => none
    | some (.dir es') =>
      match mkdirAll es' rest with
      | some es'' => some (setEntry name (.dir es'') es)
      | none => none
    | none =>
      match mkdirAll [] rest with
      | some es'' => some (setEntry name (.dir es'') es)
      | none => none

/-- `os.RemoveAll`: the path and what it contains are removed; a path that
does not exist is no error; `none` when a component before the last one is a
regular file. -/
def removeAll : List (Str × Node) → DiskPath → Option (List (Str × Node))
  | es, [] => some es
  | es, name :: rest =>
    match rest with
    | [] => some (es.filter (fun e => e.1 ≠ name))
    | _ :: _ =>
      match findEntry name es with
      | none => some es
      | some (.file _) => none
      | some (.dir es') =>
        match removeAll es' rest with
        | some es'' => some (setEntry name (.dir es'') es)
        | none => none

/-- Go `filepath.Base` of a path. -/
def Base (path : DiskPath) : Str :=
  path.getLast?.getD ".".toList

/-- Go `filepath.Ext` of a file name: the suffix that begins at its last dot. -/
def Ext : Str → Str
  | [] => []
  | c :: cs => if cs.contains '.' then Ext cs else if c = '.' then c :: cs else []

/-- The test `ext == ".yml" || ext == ".yaml"`. -/
def isWorkflowExt (name : Str) : Bool :=
  Ext name = ".yml".toList || Ext name = ".yaml".toList

/-- Go `strings.Split(s, sep)` for a separator of one character. -/
def SplitSep (sep : Char) : Str → List Str
  | [] => [[]]
  | c :: cs =>
    if c = sep then [] :: SplitSep sep cs
    else
      match SplitSep sep cs with
      | [] => [[c]]
      | l :: ls => (c :: l) :: ls

/-- Go `strings.Join(elems, sep)` for a separator of one character. -/
def JoinSep (sep : Char) : List Str → Str
  | [] => []
  | [l] => l
  | l :: l' :: ls => l ++ sep :: JoinSep sep (l' :: ls)

/-- The text of a path. -/
def pathString (path : DiskPath) : Str :=
  JoinSep '/' path

/-- The path of a text: its components between the slashes. -/
def splitPath (s : Str) : DiskPath :=
  (SplitSep '/' s).filter (fun c => !c.isEmpty)

/-! ## internal/backup/backup.go -/

def workflowDir : DiskPath := [".github".toList, "workflows".toList]

/-- The `copyFile` of backup.go.  `os.Open` also opens a directory, and the read
fails after `os.Create` has made the destination; a file copied onto itself has
been truncated by `os.Create` before it is read. -/
def copyFile (d : Disk) (src dst : DiskPath) : Option Str × Disk :=
  match lookup d src with
  | none => (some "open: no such file or directory".toList, d)
  | some (.dir _) =>
    match createFile d dst [] with
    | none => (some "create: cannot create file".toList, d)
    | some d' => (some "read: is a directory".toList, d')
  | some (.file content) =>
    match createFile d dst (if src = dst then [] else content) with
    | none => (some "create: cannot create file".toList, d)
    | some d' => (none, d')

/-- The loop of `CreateBackup` over the files. -/
def backupFiles (backupDir : DiskPath) : Disk → List DiskPath → Option Str × Disk
  | d, [] => (none, d)
  | d, file :: rest =>
    match copyFile d file (backupDir ++ [Base file]) with
    | (some e, d') =>
      (some ("failed to backup ".toList ++ pathString file ++ ": ".toList ++ e), d')
    | (none, d') => backupFiles backupDir d' rest

/-- `CreateBackup`; `now` is `time.Now().Format("20060102-150405")`. -/
def CreateBackup (d : Disk) (now : Str) (files : List DiskPath) : Except Str DiskPath × Disk :=
  let backupDir := workflowDir ++ [".backup-".toList ++ now]
  match mkdirAll d backupDir with
  | none => (.error "failed to create backup directory".toList, d)
  | some d' =>
    match backupFiles backupDir d' files with
    | (some e, d'') => (.error e, d'')
    | (none, d'') => (.ok backupDir, d'')

def validateBackup (d : Disk) (backupPath : DiskPath) : Except Str BackupInfo :=
  let parts := SplitSep '-' (Base backupPath)
  let timestamp := if parts.length ≥ 2 then JoinSep '-' (parts.drop 1) else []
  match readDir d backupPath with
  | none => .error "failed to read backup directory".toList
  | some entries =>
    let fileCount : Int :=
      entries.foldl (fun n entry => if !entry.2.isDir && isWorkflowExt entry.1 then n + 1 else n) 0
    if fileCount = 0 then .error "no workflow files found in backup".toList
    else .ok { Path := pathString backupPath, Timestamp := timestamp, FileCount := fileCount }

def ListBackups (d : Disk) : Except Str (List BackupInfo) :=
  match readDir d workflowDir with
  | none => .error "failed to read workflows directory".toList
  | some entries =>
    .ok (entries.foldl
      (fun backups entry =>
        if entry.2.isDir && ".backup-".toList.isPrefixOf entry.1 then
          match validateBackup d (workflowDir ++ [entry.1]) with
          | .ok info => backups ++ [info]
          | .error _ => backups
        else backups) [])

/-- The loop of `RestoreBackup` over the entries of the snapshot. -/
def restoreEntries (backupPath : DiskPath) : Disk → List (Str × Node) → Option Str × Disk
  | d, [] => (none, d)
  | d, entry :: rest =>
    if !entry.2.isDir && isWorkflowExt entry.1 then
      match copyFile d (backupPath ++ [entry.1]) (workflowDir ++ [entry.1]) with
      | (some e, d') => (some ("failed to restore ".toList ++ entry.1 ++ ": ".toList ++ e), d')
      | (none, d') => restoreEntries backupPath d' rest
    else restoreEntries backupPath d rest

def RestoreBackup (d : Disk) (backupPath : DiskPath) : Option Str × Disk :=
  if backupPath = [] then (some "no backup path provided".toList, d)
  else
    match validateBackup d backupPath with
    | .error e => (some ("invalid backup: ".toList ++ e), d)
    | .ok _ =>
      match readDir d backupPath with
      | none => (some "failed to read backup directory".toList, d)
      | some entries => restoreEntries backupPath d entries

def DeleteBackup (d : Disk) (backupPath : DiskPath) : Option Str × Disk :=
  if backupPath = [] then (some "no backup path provided".toList, d)
  else
    match removeAll d backupPath with
    | none => (some "failed to delete backup directory".toList, d)
    | some d' => (none, d')

/-! ## internal/workflow/finder.go -/

mutual
/-- The walk function of `FindWorkflowFiles` at `path` and below, as
`filepath.Walk` calls it: a directory with the backup prefix is skipped with what
it contains, a regular file is kept when its extension is a workflow one. -/
def walkNode : DiskPath → Node → List DiskPath
  | path, .file _ => if isWorkflowExt (Base path) then [path] else []
  | path, .dir entries =>
    if ".backup-".toList.isPrefixOf (Base path) then [] else walkEntries path entries
/-- The walk over the entries of the directory at `path`, in their order. -/
def walkEntries : DiskPath → List (Str × Node) → List DiskPath
  | _, [] => []
  | path, (name, child) :: rest => walkNode (path ++ [name]) child ++ walkEntries path rest
end

def FindWorkflowFiles (d : Disk) : Except Str (List DiskPath) :=
  match lookup d workflowDir with
  | none => .error "workflows directory not found: .github/workflows".toList
  | some node => .ok (walkNode workflowDir node)

/-- The disk with `.github/workflows` holding the given entries. -/
def exampleDisk (entries : List (Str × Node)) : Disk :=
  [(".github".toList, .dir [("workflows".toList, .dir entries)])]
/-! ## The command of `processActions` -/

/-- What `processActions` calls in the packages `backup` and `workflow`, on a
world `ω` that the calls change, and the order in which the runtime ranges over
the keys of the map of replacements, which Go leaves open. -/
structure Backend (ω : Type) where
  CreateBackup : ω → List Str → Except Str Str × ω
  ReplaceActionsInFile : ω → Str → List Replacement → Option Str × ω
  rangeOrder : List Str → List Str
  rangeOrder_perm : ∀ keys, (rangeOrder keys).Perm keys

/-- A call made by `processActions`, and whether it returned without error. -/
inductive ProcessEvent where
  | backup (ok : Bool)
  | rewrite (file : Str) (ok : Bool)
deriving DecidableEq, Repr

/-- What running the command made by `m.processActions()` gives: the message
it returns, the world it leaves, and the calls it made, oldest first. -/
structure ProcessPass (ω : Type) where
  msg : Msg
  world : ω
  log : List ProcessEvent

/-- The loop over the files of the map: each file is rewritten with its own
replacements, and the first error ends the loop. -/
def rewriteFiles {ω : Type} (b : Backend ω) (replacements : List Replacement) :
    List Str → ω → List ProcessEvent → Option Str × ω × List ProcessEvent
  | [], w, log => (none, w, log)
  | file :: rest, w, log =>
    let repls := replacements.filter (fun repl => repl.Action.FilePath = file)
    match b.ReplaceActionsInFile w file repls with
    | (some e, w') => (some e, w', log ++ [ProcessEvent.rewrite file false])
    | (none, w') => rewriteFiles b replacements rest w' (log ++ [ProcessEvent.rewrite file true])

/-- The second half of `processActions`, from `if !m.dryRun` on. -/
def applyReplacements {ω : Type} (b : Backend ω) (m : Model) (backupPath : Str) (w : ω)
    (log : List ProcessEvent) : ProcessPass ω :=
  if !m.dryRun then
    let files := b.rangeOrder (m.replacements.map (fun repl => repl.Action.FilePath)).eraseDups
    match rewriteFiles b m.replacements files w log with
    | (some e, w', log') => { msg := Msg.processCompleteMsg [] (some e), world := w', log := log' }
    | (none, w', log') => { msg := Msg.processCompleteMsg backupPath none, world := w', log := log' }
  else { msg := Msg.processCompleteMsg backupPath none, world := w, log := log }

def processActions {ω : Type} (b : Backend ω) (m : Model) (w : ω) : ProcessPass ω :=
  if !m.noBackup && !m.dryRun then
    match b.CreateBackup w m.selectedFiles with
    | (.error e, w') =>
      { msg := Msg.processCompleteMsg [] (some e), world := w', log := [ProcessEvent.backup false] }
    | (.ok backupPath, w') => applyReplacements b m backupPath w' [ProcessEvent.backup true]
  else applyReplacements b m [] w []

/-- The files of the disk as `ReplaceActionsInFile` sees them. -/
def diskFiles (d : Disk) : FileSystem :=
  { files := fun p => readFile d (splitPath p)
    writable := fun p => (createFile d (splitPath p) []).isSome }

/-- `ReplaceActionsInFile` on the disk. -/
def replaceOnDisk (d : Disk) (filePath : Str) (replacements : List Replacement) :
    Option Str × Disk :=
  match ReplaceActionsInFile (diskFiles d) filePath replacements with
  | .error e => (some e, d)
  | .ok fs =>
    match fs.files filePath with
    | none => (some "failed to write file".toList, d)
    | some content =>
      match createFile d (splitPath filePath) content with
      | none => (some "failed to write file".toList, d)
      | some d' => (none, d')

/-- The two packages on the disk, at the time `now`, with the map ranged over
in the order of first appearance. -/
def diskBackend (now : Str) : Backend Disk :=
  { CreateBackup := fun d files =>
      match CreateBackup d now (files.map splitPath) with
      | (.ok dir, d') => (.ok (pathString dir), d')
      | (.error e, d') => (.error e, d')
    ReplaceActionsInFile := replaceOnDisk
    rangeOrder := fun keys => keys
    rangeOrder_perm := fun _ => List.Perm.refl _ }

/-- A session about to process one replacement in `.github/workflows/ci.yml`. -/
def exampleProcessModel (dryRun noBackup : Bool) : Model :=
  { exampleModel State.StateProcessing with
    selectedFiles := [".github/workflows/ci.yml".toList]
    replacements :=
      [⟨{ checkoutV4 with FilePath := ".github/workflows/ci.yml".toList }, exampleSHA, "v4".toList⟩]
    dryRun := dryRun
    noBackup := noBackup }

/-- A disk with the one workflow `.github/workflows/ci.yml`. -/
def exampleProcessDisk : Disk :=
  exampleDisk [("ci.yml".toList, .file "      - uses: actions/checkout@v4\n".toList)]

/-- The relative path `rel` leads from the node to a regular file. -/
def IsFileAt : Node → List Str → Prop
  | .file _, [] => True
  | .file _, _ :: _ => False
  | .dir _, [] => False
  | .dir entries, name :: rest => ∃ child, (name, child) ∈ entries ∧ IsFileAt child rest

/-- A disk with a workflow at the top, a workflow of the same name in a
sub-directory, and an old snapshot. -/
def exampleTreeDisk : Disk :=
  exampleDisk
    [("ci.yml".toList, .file "top".toList),
      ("sub".toList, .dir [("ci.yml".toList, .file "nested".toList)]),
      (".backup-20230101-000000".toList, .dir [("ci.yml".toList, .file "old".toList)]),
      (".backup-empty".toList, .dir [("notes.txt".toList, .file [])]),
      ("README.md".toList, .file [])]

/-- The count of `validateBackup` is the number of regular files of the listing
with a workflow extension. -/
def workflowCount (entries : List (Str × Node)) : Nat :=
  entries.countP (fun entry => !entry.2.isDir && isWorkflowExt entry.1)

/-- The timestamp `validateBackup` reads from the name of a snapshot: what
follows its first `-`. -/
def backupTimestamp (name : Str) : Str :=
  if (SplitSep '-' name).length ≥ 2 then JoinSep '-' ((SplitSep '-' name).drop 1) else []

/-- The entries of `.github/workflows` on `exampleTreeDisk`. -/
def exampleTreeEntries : List (Str × Node) :=
  [("ci.yml".toList, .file "top".toList),
    ("sub".toList, .dir [("ci.yml".toList, .file "nested".toList)]),
    (".backup-20230101-000000".toList, .dir [("ci.yml".toList, .file "old".toList)]),
    (".backup-empty".toList, .dir [("notes.txt".toList, .file [])]),
    ("README.md".toList, .file [])]

/-- A session in the file selection with three workflows, the second one
unchecked. -/
def exampleSelectionModel : Model :=
  { exampleModel State.StateFileSelection with
    workflowFiles := ["ci.yml".toList, "docs.yml".toList, "release.yml".toList]
    selectedFiles := []
    fileList :=
      { items := [{ title := "ci.yml".toList, checked := true },
          { title := "docs.yml".toList, checked := false },
          { title := "release.yml".toList, checked := true }]
        index := 1 } }

/-- A workflow whose first step line ends in a comment with an `@`, and whose
last step line holds two `@` and no action reference. -/
def exampleWorkflowWithMentions : Str :=
  ("      - uses: actions/checkout@v4 # ask @octocat\n" ++
    "      - uses: actions/setup-go@v5\n" ++
    "      - run: npm install @types/node @types/react\n").toList

/-! ## Facts about the string functions -/

theorem Contains_iff (s substr : Str) : Contains s substr = true ↔ substr <:+: s := by
  induction s with
  | nil =>
    cases substr <;> simp [Contains]
  | cons c s ih =>
    simp only [Contains, Bool.or_eq_true, List.isPrefixOf_iff_prefix, ih]
    rw [List.infix_cons_iff]

theorem Contains_false_iff (s substr : Str) : Contains s substr = false ↔ ¬ substr <:+: s := by
  rw [← Contains_iff]; simp

theorem Replace1_of_not_Contains (s old new : Str) (h : Contains s old = false) :
    Replace1 s old new = s := by
  induction s with
  | nil =>
    cases old with
    | nil => simp [Contains] at h
    | cons a old => simp [Replace1]
  | cons c s ih =>
    simp only [Contains, Bool.or_eq_false_iff] at h
    simp [Replace1, h.1, ih h.2]

theorem Replace1_spec (s old new : Str) (h : Contains s old = true) :
    ∃ pre post, s = pre ++ old ++ post ∧ (∀ k, k < pre.length → ¬ old <+: s.drop k) ∧
      Replace1 s old new = pre ++ new ++ post := by
  induction s with
  | nil =>
    cases old with
    | nil => exact ⟨[], [], by simp, by simp, by simp [Replace1]⟩
    | cons a old => simp [Contains] at h
  | cons c s ih =>
    by_cases hp : old.isPrefixOf (c :: s) = true
    · obtain ⟨t, ht⟩ := List.isPrefixOf_iff_prefix.mp hp
      refine ⟨[], t, by simp [ht], by simp, ?_⟩
      simp only [Replace1, hp, if_true, List.nil_append]
      rw [← ht, List.drop_left]
    · have hp' : old.isPrefixOf (c :: s) = false := Bool.eq_false_iff.mpr hp
      simp only [Contains, hp', Bool.false_or] at h
      obtain ⟨pre, post, hs, hleft, hrep⟩ := ih h
      refine ⟨c :: pre, post, by simp [hs], ?_, ?_⟩
      · intro k hk
        cases k with
        | zero =>
          simpa [List.isPrefixOf_iff_prefix] using hp
        | succ k =>
          simp only [List.drop_succ_cons]
          exact hleft k (by simpa using hk)
      · simp [Replace1, hp, hrep]

theorem Split_ne_nil (s : Str) : Split s ≠ [] := by
  induction s with
  | nil => simp [Split]
  | cons c cs ih =>
    simp only [Split]
    split
    · simp
    · split <;> simp

theorem Join_Split (s : Str) : Join (Split s) = s := by
  induction s with
  | nil => simp [Split, Join]
  | cons c cs ih =>
    simp only [Split]
    split
    · rename_i hc
      subst hc
      cases h : Split cs with
      | nil => exact absurd h (Split_ne_nil cs)
      | cons l ls => rw [h] at ih; simp [Join, ih]
    · cases h : Split cs with
      | nil => exact absurd h (Split_ne_nil cs)
      | cons l ls =>
        rw [h] at ih
        cases ls with
        | nil => simp [Join] at ih ⊢; exact ih
        | cons l' ls => simp [Join] at ih ⊢; exact ih

theorem Split_no_newline (s : Str) : ∀ l ∈ Split s, '\n' ∉ l := by
  induction s with
  | nil => simp [Split]
  | cons c cs ih =>
    simp only [Split]
    split
    · intro l hl
      rcases List.mem_cons.mp hl with rfl | hl
      · simp
      · exact ih l hl
    · rename_i hc
      cases h : Split cs with
      | nil => exact absurd h (Split_ne_nil cs)
      | cons l ls =>
        rw [h] at ih
        intro l0 hl0
        rcases List.mem_cons.mp hl0 with rfl | hl0
        · have := ih l (List.mem_cons_self _ _)
          simp only [List.mem_cons, not_or]
          exact ⟨fun e => hc e.symm, this⟩
        · exact ih l0 (List.mem_cons_of_mem _ hl0)

theorem Split_of_no_newline (l : Str) (h : '\n' ∉ l) : Split l = [l] := by
  induction l with
  | nil => simp [Split]
  | cons c cs ih =>
    simp only [List.mem_cons, not_or] at h
    have hc : ¬ c = '\n' := fun e => h.1 e.symm
    simp [Split, hc, ih h.2]

theorem Split_append_newline (l rest : Str) (h : '\n' ∉ l) :
    Split (l ++ '\n' :: rest) = l :: Split rest := by
  induction l with
  | nil => simp [Split]
  | cons c cs ih =>
    simp only [List.mem_cons, not_or] at h
    have hc : ¬ c = '\n' := fun e => h.1 e.symm
    simp [Split, hc, ih h.2]

theorem Split_Join (ls : List Str) (hne : ls ≠ []) (h : ∀ l ∈ ls, '\n' ∉ l) :
    Split (Join ls) = ls := by
  induction ls with
  | nil => exact absurd rfl hne
  | cons l ls ih =>
    cases ls with
    | nil => simpa [Join] using Split_of_no_newline l (h l (List.mem_cons_self _ _))
    | cons l' ls =>
      simp only [Join]
      rw [Split_append_newline l _ (h l (List.mem_cons_self _ _))]
      rw [ih (by simp) (fun x hx => h x (List.mem_cons_of_mem _ hx))]

theorem cut_eq_some (c : Char) (s a b : Str) :
    cut c s = some (a, b) ↔ s = a ++ c :: b ∧ c ∉ a := by
  induction s generalizing a b with
  | nil => simp [cut]
  | cons x xs ih =>
    simp only [cut]
    split
    · rename_i hx
      subst hx
      constructor
      · intro h
        simp only [Option.some.injEq, Prod.mk.injEq] at h
        obtain ⟨rfl, rfl⟩ := h
        simp
      · rintro ⟨h1, h2⟩
        cases a with
        | nil => simp at h1; simp [h1]
        | cons y ys =>
          simp only [List.cons_append, List.cons.injEq] at h1
          simp [h1.1] at h2
    · rename_i hx
      cases hcut : cut c xs with
      | none =>
        simp only [false_iff, reduceCtorEq]
        rintro ⟨h1, h2⟩
        cases a with
        | nil => simp at h1; exact absurd h1.1 hx
        | cons y ys =>
          simp only [List.cons_append, List.cons.injEq] at h1
          have := (ih ys b).mpr ⟨h1.2, fun hm => h2 (List.mem_cons_of_mem _ hm)⟩
          rw [hcut] at this
          cases this
      | some p =>
        obtain ⟨a', b'⟩ := p
        have ih' := (ih a' b').mp hcut
        constructor
        · intro h
          simp only [Option.some.injEq, Prod.mk.injEq] at h
          obtain ⟨rfl, rfl⟩ := h
          refine ⟨by simp [ih'.1], ?_⟩
          simp only [List.mem_cons, not_or]
          exact ⟨fun e => hx e.symm, ih'.2⟩
        · rintro ⟨h1, h2⟩
          cases a with
          | nil => simp at h1; exact absurd h1.1 hx
          | cons y ys =>
            simp only [List.cons_append, List.cons.injEq] at h1
            have := (ih ys b).mpr ⟨h1.2, fun hm => h2 (List.mem_cons_of_mem _ hm)⟩
            rw [hcut] at this
            simp only [Option.some.injEq, Prod.mk.injEq] at this
            simp [this.1, this.2, h1.1]

/-! ## Facts about the parser -/

theorem actionRegex_eq_some (s o r f : Str) :
    actionRegex s = some (o, r, f) ↔
      s = o ++ '/' :: (r ++ '@' :: f) ∧ o ≠ [] ∧ '/' ∉ o ∧ r ≠ [] ∧ '@' ∉ r ∧ f ≠ [] ∧
        '\n' ∉ f := by
  unfold actionRegex
  constructor
  · intro h
    cases h1 : cut '/' s with
    | none => rw [h1] at h; cases h
    | some p =>
      obtain ⟨o', rest⟩ := p
      rw [h1] at h
      simp only at h
      cases h2 : cut '@' rest with
      | none => rw [h2] at h; cases h
      | some q =>
        obtain ⟨r', f'⟩ := q
        rw [h2] at h
        simp only at h
        split at h
        · cases h
        · rename_i hc
          simp only [Option.some.injEq, Prod.mk.injEq] at h
          obtain ⟨rfl, rfl, rfl⟩ := h
          have e1 := (cut_eq_some _ _ _ _).mp h1
          have e2 := (cut_eq_some _ _ _ _).mp h2
          simp only [Bool.or_eq_true, List.isEmpty_iff, List.contains, List.elem_iff, not_or] at hc
          refine ⟨by rw [e1.1, e2.1], hc.1.1.1, e1.2, hc.1.1.2, e2.2, hc.1.2, hc.2⟩
  · rintro ⟨hs, ho, hso, hr, hsr, hf, hnl⟩
    have h1 : cut '/' s = some (o, r ++ '@' :: f) := (cut_eq_some _ _ _ _).mpr ⟨hs, hso⟩
    have h2 : cut '@' (r ++ '@' :: f) = some (r, f) := (cut_eq_some _ _ _ _).mpr ⟨rfl, hsr⟩
    rw [h1]
    simp only [h2]
    rw [if_neg]
    simp only [Bool.or_eq_true, List.isEmpty_iff, List.contains, List.elem_iff, not_or]
    exact ⟨⟨⟨ho, hr⟩, hf⟩, hnl⟩

theorem parseActionString_eq_some (uses filePath : Str) (lineNum : Int) (a : ActionReference)
    (h : parseActionString uses filePath lineNum = some a) :
    actionRegex (TrimSpace uses) = some (a.Owner, a.Repo, a.Ref) ∧
      a.FullUses = TrimSpace uses ∧ a.IsPinned = shaRegex a.Ref ∧ a.Line = lineNum ∧
        a.FilePath = filePath := by
  unfold parseActionString at h
  simp only at h
  cases hre : actionRegex (TrimSpace uses) with
  | none => rw [hre] at h; cases h
  | some p =>
    obtain ⟨o, r, f⟩ := p
    rw [hre] at h
    simp only [Option.some.injEq] at h
    subst h
    simp

theorem parseActionString_FullUses (uses filePath : Str) (lineNum : Int) (a : ActionReference)
    (h : parseActionString uses filePath lineNum = some a) :
    a.FullUses = a.Owner ++ '/' :: (a.Repo ++ '@' :: a.Ref) := by
  obtain ⟨hre, hfull, -⟩ := parseActionString_eq_some uses filePath lineNum a h
  rw [hfull]
  exact ((actionRegex_eq_some _ _ _ _).mp hre).1

theorem oldUses_eq_FullUses (uses filePath : Str) (lineNum : Int) (a : ActionReference)
    (sha version : Str) (h : parseActionString uses filePath lineNum = some a) :
    oldUses ⟨a, sha, version⟩ = a.FullUses := by
  rw [parseActionString_FullUses uses filePath lineNum a h]
  simp [oldUses]

theorem matchHexCount_iff (n : Nat) (s : Str) :
    matchHexCount n s = true ↔ s.length = n ∧ ∀ c ∈ s, isLowerHex c = true := by
  induction n generalizing s with
  | zero =>
    cases s with
    | nil => simp [matchHexCount]
    | cons c cs => simp [matchHexCount]
  | succ n ih =>
    cases s with
    | nil => simp [matchHexCount]
    | cons c cs =>
      simp only [matchHexCount, Bool.and_eq_true, ih, List.length_cons, Nat.add_right_cancel_iff,
        List.mem_cons, forall_eq_or_imp]
      tauto

theorem isLowerHex_iff (c : Char) :
    isLowerHex c = true ↔ ('0' ≤ c ∧ c ≤ '9') ∨ ('a' ≤ c ∧ c ≤ 'f') := by
  simp only [isLowerHex, Bool.or_eq_true, Bool.and_eq_true, decide_eq_true_eq]
  tauto

/-! ## Facts about the replacement loops -/

theorem replaceLines_length (rs : List Replacement) (lines : List Str) :
    (replaceLines rs lines).length = lines.length := by
  unfold replaceLines
  induction rs generalizing lines with
  | nil => rfl
  | cons r rs ih => simp [List.foldl_cons, ih]

/-- Every line is rewritten on its own: the loops are a map over the lines. -/
theorem replaceLines_eq_map (rs : List Replacement) (lines : List Str) :
    replaceLines rs lines = lines.map (fun l => rs.foldl (fun l r => replaceLine r l) l) := by
  unfold replaceLines
  induction rs generalizing lines with
  | nil => simp
  | cons r rs ih => simp [List.foldl_cons, ih, List.map_map, Function.comp_def]

theorem ReplaceActionsInFile_ok (fs : FileSystem) (path content : Str) (rs : List Replacement)
    (hread : fs.files path = some content) (hwrite : fs.writable path = true) :
    ReplaceActionsInFile fs path rs =
      .ok (fs.write path (Join (replaceLines rs (Split content)))) := by
  simp [ReplaceActionsInFile, hread, hwrite]

theorem write_files_self (fs : FileSystem) (path content : Str) :
    (fs.write path content).files path = some content := by
  simp [FileSystem.write]

/-! ## The claims -/

/-- C1: for an action `a` returned by `parseActionString`, `ReplaceActionsInFile`
with the single replacement of `a` by `sha` and `version` writes the lines of the
file joined again, as many as before, and a line that contains `a.FullUses` (which
is `Owner/Repo@Ref`) is written with the leftmost occurrence of `Owner/Repo@Ref`
replaced by `Owner/Repo@sha # version`, the text before and after it unchanged. -/
theorem C1_single_replacement_rewrites_first_occurrence
    (uses filePath : Str) (lineNum : Int) (a : ActionReference) (sha version : Str)
    (fs : FileSystem) (path content : Str)
    (hparse : parseActionString uses filePath lineNum = some a)
    (hread : fs.files path = some content) (hwrite : fs.writable path = true) :
    ∃ (fs' : FileSystem) (lines' : List Str),
      ReplaceActionsInFile fs path [⟨a, sha, version⟩] = .ok fs' ∧
      fs'.files path = some (Join lines') ∧ lines'.length = (Split content).length ∧
      a.FullUses = a.Owner ++ '/' :: (a.Repo ++ '@' :: a.Ref) ∧
      ∀ (i : Nat) (L : Str), (Split content)[i]? = some L → Contains L a.FullUses = true →
        ∃ pre post, L = pre ++ (a.Owner ++ '/' :: (a.Repo ++ '@' :: a.Ref)) ++ post ∧
          (∀ k, k < pre.length → ¬ (a.Owner ++ '/' :: (a.Repo ++ '@' :: a.Ref)) <+: L.drop k) ∧
          lines'[i]? =
            some (pre ++ (a.Owner ++ '/' :: (a.Repo ++ '@' :: (sha ++ ' ' :: '#' :: ' ' :: version)))
              ++ post) := by
  have hfull := parseActionString_FullUses uses filePath lineNum a hparse
  have hold := oldUses_eq_FullUses uses filePath lineNum a sha version hparse
  refine ⟨_, replaceLines [⟨a, sha, version⟩] (Split content),
    ReplaceActionsInFile_ok fs path content _ hread hwrite, write_files_self _ _ _,
    replaceLines_length _ _, hfull, ?_⟩
  intro i L hL hc
  have hc' : Contains L (oldUses ⟨a, sha, version⟩) = true := by rw [hold]; exact hc
  obtain ⟨pre, post, h1, h2, h3⟩ := Replace1_spec L _ (newUses ⟨a, sha, version⟩) hc'
  rw [hold, hfull] at h1 h2
  refine ⟨pre, post, h1, h2, ?_⟩
  rw [replaceLines_eq_map, List.getElem?_map, hL]
  simp only [List.foldl_cons, List.foldl_nil, Option.map_some', replaceLine, hc, if_true, h3]
  simp [newUses]

/-- Witness of C1: the line `      - uses: actions/checkout@v4` is written as
`      - uses: actions/checkout@<sha> # v4`. -/
theorem C1_single_replacement_rewrites_first_occurrence_witness :
    parseActionString "actions/checkout@v4".toList "ci.yml".toList 1
        = some ⟨"actions".toList, "checkout".toList, "v4".toList, 1, "ci.yml".toList,
            "actions/checkout@v4".toList, false⟩ ∧
      replaceLine
          ⟨⟨"actions".toList, "checkout".toList, "v4".toList, 1, "ci.yml".toList,
              "actions/checkout@v4".toList, false⟩,
            "8f4b7f84864484a7bf31766abe9204da3cbe65b3".toList, "v4".toList⟩
          "      - uses: actions/checkout@v4".toList
        = "      - uses: actions/checkout@8f4b7f84864484a7bf31766abe9204da3cbe65b3 # v4".toList ∧
      ∃ (fs' : FileSystem) (lines' : List Str),
        ReplaceActionsInFile
            ⟨fun p => if p = "ci.yml".toList then some "      - uses: actions/checkout@v4".toList
              else none, fun _ => true⟩
            "ci.yml".toList
            [⟨⟨"actions".toList, "checkout".toList, "v4".toList, 1, "ci.yml".toList,
                "actions/checkout@v4".toList, false⟩,
              "8f4b7f84864484a7bf31766abe9204da3cbe65b3".toList, "v4".toList⟩] = .ok fs' ∧
        fs'.files "ci.yml".toList = some (Join lines') ∧
        lines'.length = (Split "      - uses: actions/checkout@v4".toList).length :=
  ⟨by decide, by decide,
    (C1_single_replacement_rewrites_first_occurrence "actions/checkout@v4".toList "ci.yml".toList 1
      ⟨"actions".toList, "checkout".toList, "v4".toList, 1, "ci.yml".toList,
        "actions/checkout@v4".toList, false⟩
      "8f4b7f84864484a7bf31766abe9204da3cbe65b3".toList "v4".toList
      ⟨fun p => if p = "ci.yml".toList then some "      - uses: actions/checkout@v4".toList
        else none, fun _ => true⟩
      "ci.yml".toList "      - uses: actions/checkout@v4".toList (by decide) (by decide) rfl).imp
      fun _ h => h.imp fun _ h => ⟨h.1, h.2.1, h.2.2.1⟩⟩

/-- C2: for an action `a` returned by `parseActionString`, `a.IsPinned` is true
exactly when `a.Ref` has 40 characters, each of them in `0-9` or `a-f`. -/
theorem C2_isPinned_iff_forty_lowercase_hex
    (uses filePath : Str) (lineNum : Int) (a : ActionReference)
    (hparse : parseActionString uses filePath lineNum = some a) :
    a.IsPinned = true ↔
      a.Ref.length = 40 ∧ ∀ c ∈ a.Ref, ('0' ≤ c ∧ c ≤ '9') ∨ ('a' ≤ c ∧ c ≤ 'f') := by
  obtain ⟨-, -, hpin, -⟩ := parseActionString_eq_some uses filePath lineNum a hparse
  rw [hpin, shaRegex, matchHexCount_iff]
  simp only [isLowerHex_iff]

set_option maxRecDepth 100000 in
/-- Witness of C2: a reference pinned to a SHA; the same SHA in capitals and a
SHA of 39 characters are not pinned. -/
theorem C2_isPinned_iff_forty_lowercase_hex_witness :
    (pinnedCheckout.IsPinned = true ↔
      pinnedCheckout.Ref.length = 40 ∧
        ∀ c ∈ pinnedCheckout.Ref, ('0' ≤ c ∧ c ≤ '9') ∨ ('a' ≤ c ∧ c ≤ 'f')) ∧
    pinnedCheckout.IsPinned = true ∧
    (parseActionString "actions/checkout@8F4B7F84864484A7BF31766ABE9204DA3CBE65B3".toList
        "ci.yml".toList 1).map (fun a => a.IsPinned) = some false ∧
    (parseActionString "actions/checkout@8f4b7f84864484a7bf31766abe9204da3cbe65b".toList
        "ci.yml".toList 1).map (fun a => a.IsPinned) = some false :=
  ⟨C2_isPinned_iff_forty_lowercase_hex
      "actions/checkout@8f4b7f84864484a7bf31766abe9204da3cbe65b3".toList "ci.yml".toList 1
      pinnedCheckout (by decide),
    by decide, by decide, by decide⟩

/-! ## Facts about the state machine -/

theorem foldl_unpinned (actions acc : List ActionReference) :
    actions.foldl (fun acc action => if !action.IsPinned then acc ++ [action] else acc) acc
      = acc ++ actions.filter (fun action => !action.IsPinned) := by
  induction actions generalizing acc with
  | nil => simp
  | cons a as ih =>
    simp only [List.foldl_cons, ih, List.filter_cons]
    cases a.IsPinned <;> simp

/-- C3: a `scanCompleteMsg` without an error sets the model's actions to the
actions of the message that are not pinned, in their order (none of them pinned,
no unpinned one lost), and the state to `ActionReview`, also when none is left. -/
theorem C3_scan_complete_keeps_exactly_unpinned
    (env : Env) (m : Model) (actions : List ActionReference) :
    (Update env m (Msg.scanCompleteMsg actions none)).1.actions
        = actions.filter (fun action => !action.IsPinned) ∧
      (Update env m (Msg.scanCompleteMsg actions none)).1.actions.Sublist actions ∧
      (∀ action, action ∈ (Update env m (Msg.scanCompleteMsg actions none)).1.actions ↔
        action ∈ actions ∧ action.IsPinned = false) ∧
      (Update env m (Msg.scanCompleteMsg actions none)).1.state = State.StateActionReview ∧
      (handleScanComplete m [] none).1.state = State.StateActionReview ∧
      (handleScanComplete m [] none).1.actions = [] := by
  have h : (Update env m (Msg.scanCompleteMsg actions none)).1.actions
      = actions.filter (fun action => !action.IsPinned) := by
    simp only [Update, handleScanComplete]
    rw [foldl_unpinned]
    rfl
  refine ⟨h, ?_, ?_, ?_, ?_, ?_⟩
  · rw [h]; exact List.filter_sublist _
  · intro action
    rw [h]
    simp [List.mem_filter]
  · simp [Update, handleScanComplete]
  · simp [handleScanComplete]
  · simp [handleScanComplete]

/-- C8: for a ref that begins with `v`, when the lookup of `tags/<ref>` fails
with status 404 and the commit lookup of `<ref>` returns a commit with SHA `s`,
`ResolveAction` returns SHA `s`, Version `ref` and no error. -/
theorem C8_tag_not_found_falls_back_to_branch
    {σ : Type} (api : GitHubAPI σ) (c : Client) (w w1 w2 : σ) (owner repo ref e s : Str)
    (hv : "v".toList <+: ref)
    (htag : api.GetRef w c.token owner repo ("tags/".toList ++ ref)
      = (GetRefResult.fail (some 404) e, w1))
    (hcommit : api.GetCommit w1 c.token owner repo ref = (GetCommitResult.ok (some s), w2)) :
    ResolveAction api c w owner repo ref = ({ SHA := s, Version := ref, Error := none }, w2) := by
  have hv' : "v".toList.isPrefixOf ref = true := List.isPrefixOf_iff_prefix.mpr hv
  simp only [ResolveAction, hv', if_true, htag, resolveAsBranch, hcommit]

/-- Witness of C8: tag `v2` is missing, branch `v2` has a head commit. -/
theorem C8_tag_not_found_falls_back_to_branch_witness :
    ResolveAction
        (⟨fun w _ _ _ _ => (GetRefResult.fail (some 404) "404 Not Found".toList, w + 1),
          fun w _ _ _ _ =>
            (GetCommitResult.ok (some "8f4b7f84864484a7bf31766abe9204da3cbe65b3".toList), w + 1)⟩ :
          GitHubAPI Nat)
        ⟨[]⟩ 0 "actions".toList "checkout".toList "v2".toList
      = ({ SHA := "8f4b7f84864484a7bf31766abe9204da3cbe65b3".toList, Version := "v2".toList,
           Error := none }, 2) :=
  C8_tag_not_found_falls_back_to_branch _ ⟨[]⟩ 0 1 2 "actions".toList "checkout".toList
    "v2".toList "404 Not Found".toList "8f4b7f84864484a7bf31766abe9204da3cbe65b3".toList
    (by decide) rfl rfl

theorem resolveResults_length {σ : Type} (api : GitHubAPI σ) (c : Client)
    (actions : List ActionReference) (w : σ) :
    (resolveResults api c actions w).length = actions.length := by
  induction actions generalizing w with
  | nil => simp [resolveResults]
  | cons a l ih => simp [resolveResults, ih]

theorem resolveLoop_rate_limited {σ : Type} (api : GitHubAPI σ) (c : Client)
    (actions : List ActionReference) (w : σ) (replacements : List Replacement)
    (lastError : Option Str) (calls : List ResolveCall) (i : Nat)
    (hbefore : ∀ (j : Nat) (r : ResolvedAction), j < i →
      (resolveResults api c actions w)[j]? = some r → IsRateLimitError r.Error = false)
    (hat : ∃ r, (resolveResults api c actions w)[i]? = some r ∧ IsRateLimitError r.Error = true) :
    (resolveLoop api c actions w replacements lastError calls).msg = Msg.rateLimitMsg ∧
      (resolveLoop api c actions w replacements lastError calls).calls
        = calls ++ (actions.take (i + 1)).map
            (fun a => ({ owner := a.Owner, repo := a.Repo, ref := a.Ref } : ResolveCall)) := by
  induction actions generalizing w replacements lastError calls i with
  | nil =>
    obtain ⟨r, hr, -⟩ := hat
    simp [resolveResults] at hr
  | cons a rest ih =>
    cases hres : ResolveAction api c w a.Owner a.Repo a.Ref with
    | mk resolved w' =>
      have hrr : resolveResults api c (a :: rest) w = resolved :: resolveResults api c rest w' := by
        simp [resolveResults, hres]
      rw [hrr] at hbefore hat
      cases i with
      | zero =>
        obtain ⟨r, hr, hrl⟩ := hat
        simp only [List.getElem?_cons_zero, Option.some.injEq] at hr
        subst hr
        cases herr : resolved.Error with
        | none => rw [herr] at hrl; simp [IsRateLimitError] at hrl
        | some e =>
          rw [herr] at hrl
          simp [resolveLoop, hres, herr, hrl]
      | succ i =>
        have h0 : IsRateLimitError resolved.Error = false :=
          hbefore 0 resolved (Nat.succ_pos i) (by simp)
        have hbefore' : ∀ (j : Nat) (r : ResolvedAction), j < i →
            (resolveResults api c rest w')[j]? = some r → IsRateLimitError r.Error = false := by
          intro j r hj hr
          exact hbefore (j + 1) r (Nat.succ_lt_succ hj) (by simpa using hr)
        have hat' : ∃ r, (resolveResults api c rest w')[i]? = some r ∧
            IsRateLimitError r.Error = true := by
          obtain ⟨r, hr, hrl⟩ := hat
          exact ⟨r, by simpa using hr, hrl⟩
        cases herr : resolved.Error with
        | none =>
          have := ih w' (replacements ++ [⟨a, resolved.SHA, resolved.Version⟩]) lastError
            (calls ++ [⟨a.Owner, a.Repo, a.Ref⟩]) i hbefore' hat'
          simp only [resolveLoop, hres, herr]
          simpa using this
        | some e =>
          rw [herr] at h0
          have := ih w' replacements (some e) (calls ++ [⟨a.Owner, a.Repo, a.Ref⟩]) i hbefore' hat'
          simp only [resolveLoop, hres, herr, h0]
          simpa using this

/-- C9: when the first result classified by `IsRateLimitError` is the one of
the action at index `i`, the resolution pass calls `ResolveAction` for the actions
at indices `0..i` in order and for no other, and returns `rateLimitMsg`, which has
no field for the results obtained; handling it sets the state to `RateLimited`
and leaves actions and replacements as they were, so that a later pass of the
resulting model is a pass over the same full list. -/
theorem C9_rate_limit_stops_pass_and_discards_results
    {σ : Type} (env : Env) (api : GitHubAPI σ) (m : Model) (w : σ) (i : Nat)
    (hbefore : ∀ (j : Nat) (r : ResolvedAction), j < i →
      (resolveResults api m.githubClient m.actions w)[j]? = some r →
        IsRateLimitError r.Error = false)
    (hat : ∃ r, (resolveResults api m.githubClient m.actions w)[i]? = some r ∧
      IsRateLimitError r.Error = true) :
    (resolveActions api m w).msg = Msg.rateLimitMsg ∧
      (resolveActions api m w).calls
        = (m.actions.take (i + 1)).map
            (fun a => ({ owner := a.Owner, repo := a.Repo, ref := a.Ref } : ResolveCall)) ∧
      (resolveActions api m w).calls.length = i + 1 ∧
      (Update env m (resolveActions api m w).msg).1.state = State.StateRateLimited ∧
      (Update env m (resolveActions api m w).msg).1.actions = m.actions ∧
      (Update env m (resolveActions api m w).msg).1.replacements = m.replacements ∧
      (Update env m (resolveActions api m w).msg).2 = Cmd.nil ∧
      ∀ w' : σ, resolveActions api (Update env m (resolveActions api m w).msg).1 w'
        = resolveActions api m w' := by
  obtain ⟨h1, h2⟩ := resolveLoop_rate_limited api m.githubClient m.actions w [] none [] i hbefore hat
  have hlen : i < m.actions.length := by
    obtain ⟨r, hr, -⟩ := hat
    have := (List.getElem?_eq_some.mp hr).1
    have hl := resolveResults_length api m.githubClient m.actions w
    omega
  have hmsg : (resolveActions api m w).msg = Msg.rateLimitMsg := h1
  have hcalls : (resolveActions api m w).calls = (m.actions.take (i + 1)).map
      (fun a => ({ owner := a.Owner, repo := a.Repo, ref := a.Ref } : ResolveCall)) := by
    simpa using h2
  refine ⟨hmsg, hcalls, ?_, ?_, ?_, ?_, ?_, ?_⟩
  · rw [hcalls]; simp; omega
  · rw [hmsg]; simp [Update, handleRateLimit]
  · rw [hmsg]; simp [Update, handleRateLimit]
  · rw [hmsg]; simp [Update, handleRateLimit]
  · rw [hmsg]; simp [Update, handleRateLimit]
  · intro w'
    rw [hmsg]
    simp [Update, handleRateLimit, resolveActions]

set_option maxRecDepth 100000 in
/-- Witness of C9: three unpinned actions, the second call is rate limited. -/
theorem C9_rate_limit_stops_pass_and_discards_results_witness :
    (resolveActions exampleAPI (exampleModel State.StateResolving) 0).msg = Msg.rateLimitMsg ∧
      (resolveActions exampleAPI (exampleModel State.StateResolving) 0).calls
        = [⟨"actions".toList, "checkout".toList, "main".toList⟩,
            ⟨"actions".toList, "cache".toList, "main".toList⟩] ∧
      (Update exampleEnv (exampleModel State.StateResolving) Msg.rateLimitMsg).1.actions
        = (exampleModel State.StateResolving).actions := by
  have hres : resolveResults exampleAPI (exampleModel State.StateResolving).githubClient
      (exampleModel State.StateResolving).actions 0
      = [⟨exampleSHA, "main".toList, none⟩, ⟨[], [], some "403 API rate limit exceeded".toList⟩,
          ⟨exampleSHA, "main".toList, none⟩] := by decide
  have h := C9_rate_limit_stops_pass_and_discards_results exampleEnv exampleAPI
    (exampleModel State.StateResolving) 0 1
    (by
      intro j r hj hr
      rw [hres] at hr
      have hj0 : j = 0 := by omega
      subst hj0
      simp only [List.getElem?_cons_zero, Option.some.injEq] at hr
      subst hr
      rfl)
    ⟨⟨[], [], some "403 API rate limit exceeded".toList⟩, by rw [hres]; rfl, by decide⟩
  refine ⟨h.1, ?_, ?_⟩
  · rw [h.2.1]; decide
  · have := h.2.2.2.2.1
    rw [h.1] at this
    exact this

/-- C10, on the code: in state `RateLimited` with the token prompt active the
enter key is taken by the `enter` case of the key switch, which only sets the
prompt flag again: the model comes back as it was, with no command.  The block
that sets the token, clears the flag, moves to `ActionReview` and dispatches the
resolution pass comes after that switch and is not reached. -/
theorem C10_enter_in_token_prompt_changes_nothing (env : Env) (m : Model) :
    Update env { m with state := State.StateRateLimited, tokenPrompt := true }
        (Msg.KeyMsg "enter".toList)
      = ({ m with state := State.StateRateLimited, tokenPrompt := true }, Cmd.nil) ∧
    (tokenPromptKey { m with state := State.StateRateLimited, tokenPrompt := true }
        "enter".toList).1.githubClient.token = m.tokenInput ∧
    (tokenPromptKey { m with state := State.StateRateLimited, tokenPrompt := true }
        "enter".toList).1.state = State.StateActionReview := by
  refine ⟨?_, ?_, ?_⟩
  · simp [Update, handleKeyPress, handleEnterKey]
  · simp [tokenPromptKey, Client.SetToken]
  · simp [tokenPromptKey]

set_option maxRecDepth 100000 in
/-- C4, on the code: with the one replacement of `actions/checkout@v4`, the line
whose reference is `actions/checkout@v4.1` is rewritten too, to the SHA resolved
for `v4`; and with the one replacement of the unpinned `actions/checkout@8f4b7f8`,
the line whose reference is already pinned to a SHA that starts with `8f4b7f8`
is rewritten. -/
theorem C4_line_with_longer_ref_is_rewritten :
    parseActionString "actions/checkout@v4".toList "ci.yml".toList 1 = some checkoutV4 ∧
      checkoutV4.IsPinned = false ∧
      writtenContent
          (ReplaceActionsInFile
            (exampleFS
              "      - uses: actions/checkout@v4\n      - uses: actions/checkout@v4.1\n".toList)
            "ci.yml".toList [⟨checkoutV4, exampleSHA, "v4".toList⟩])
          "ci.yml".toList
        = some ("      - uses: actions/checkout@8f4b7f84864484a7bf31766abe9204da3cbe65b3 # v4\n" ++
            "      - uses: actions/checkout@8f4b7f84864484a7bf31766abe9204da3cbe65b3 # v4.1\n").toList ∧
      (parseActionString "actions/checkout@8f4b7f8".toList "ci.yml".toList 1).map
          (fun a => writtenContent
            (ReplaceActionsInFile
              (exampleFS
                "      - uses: actions/checkout@8f4b7f84864484a7bf31766abe9204da3cbe65b3".toList)
              "ci.yml".toList [⟨a, exampleSHA, "8f4b7f8".toList⟩])
            "ci.yml".toList)
        = some (some ("      - uses: actions/checkout@8f4b7f84864484a7bf31766abe9204da3cbe65b3" ++
            " # 8f4b7f84864484a7bf31766abe9204da3cbe65b3").toList) ∧
      (parseActionString "actions/checkout@8f4b7f8".toList "ci.yml".toList 1).map
          (fun a => a.IsPinned) = some false := by
  refine ⟨by decide, by decide, by decide, by decide, by decide⟩

set_option maxRecDepth 100000 in
/-- C6, on the code: the step line `- uses: "actions/checkout@v4"` has the uses
value `actions/checkout@v4`, which the parser returns as an unpinned action; the
rewritten line is `- uses: "actions/checkout@<sha> # v4"`, whose uses value is
`actions/checkout@<sha> # v4`, and parsing it gives the Ref `<sha> # v4` and
IsPinned false. -/
theorem C6_quoted_uses_value_is_not_pinned_after_rewrite :
    usesValue "      - uses: \"actions/checkout@v4\"".toList = some "actions/checkout@v4".toList ∧
      parseActionString "actions/checkout@v4".toList "ci.yml".toList 1 = some checkoutV4 ∧
      checkoutV4.IsPinned = false ∧
      shaRegex exampleSHA = true ∧
      writtenContent
          (ReplaceActionsInFile (exampleFS "      - uses: \"actions/checkout@v4\"".toList)
            "ci.yml".toList [⟨checkoutV4, exampleSHA, "v4".toList⟩])
          "ci.yml".toList
        = some ("      - uses: \"actions/checkout@8f4b7f84864484a7bf31766abe9204da3cbe65b3" ++
            " # v4\"").toList ∧
      usesValue ("      - uses: \"actions/checkout@8f4b7f84864484a7bf31766abe9204da3cbe65b3" ++
            " # v4\"").toList
        = some "actions/checkout@8f4b7f84864484a7bf31766abe9204da3cbe65b3 # v4".toList ∧
      parseActionString "actions/checkout@8f4b7f84864484a7bf31766abe9204da3cbe65b3 # v4".toList
          "ci.yml".toList 1
        = some
            { Owner := "actions".toList
              Repo := "checkout".toList
              Ref := "8f4b7f84864484a7bf31766abe9204da3cbe65b3 # v4".toList
              Line := 1
              FilePath := "ci.yml".toList
              FullUses := "actions/checkout@8f4b7f84864484a7bf31766abe9204da3cbe65b3 # v4".toList
              IsPinned := false } := by
  refine ⟨by decide, by decide, by decide, by decide, by decide, by decide, by decide⟩

/-! ## The frame of a rewrite -/

theorem foldl_replaceLine_of_no_match (rs : List Replacement) (L : Str)
    (h : ∀ r ∈ rs, Contains L r.Action.FullUses = false) :
    rs.foldl (fun l r => replaceLine r l) L = L := by
  induction rs with
  | nil => rfl
  | cons r rs ih =>
    have hr : replaceLine r L = L := by
      simp [replaceLine, h r (List.mem_cons_self _ _)]
    rw [List.foldl_cons, hr]
    exact ih (fun r' hr' => h r' (List.mem_cons_of_mem _ hr'))

theorem replaceLine_no_newline (r : Replacement) (L : Str) (hL : '\n' ∉ L)
    (hs : '\n' ∉ r.SHA) (hv : '\n' ∉ r.Version) : '\n' ∉ replaceLine r L := by
  unfold replaceLine
  split
  · cases hc : Contains L (oldUses r) with
    | false => rw [Replace1_of_not_Contains _ _ _ hc]; exact hL
    | true =>
      obtain ⟨pre, post, h1, -, h3⟩ := Replace1_spec L (oldUses r) (newUses r) hc
      rw [h3]
      rw [h1] at hL
      simp only [oldUses, List.mem_append, List.mem_cons, not_or] at hL
      simp only [newUses, List.mem_append, List.mem_cons, not_or]
      have d1 : ¬ '\n' = ' ' := by decide
      have d2 : ¬ '\n' = '#' := by decide
      tauto
  · exact hL

theorem foldl_replaceLine_no_newline (rs : List Replacement) (L : Str) (hL : '\n' ∉ L)
    (h : ∀ r ∈ rs, '\n' ∉ r.SHA ∧ '\n' ∉ r.Version) :
    '\n' ∉ rs.foldl (fun l r => replaceLine r l) L := by
  induction rs generalizing L with
  | nil => exact hL
  | cons r rs ih =>
    rw [List.foldl_cons]
    exact ih _ (replaceLine_no_newline r L hL (h r (List.mem_cons_self _ _)).1
      (h r (List.mem_cons_self _ _)).2) (fun r' hr' => h r' (List.mem_cons_of_mem _ hr'))

theorem Split_Join_replaceLines (rs : List Replacement) (content : Str)
    (h : ∀ r ∈ rs, '\n' ∉ r.SHA ∧ '\n' ∉ r.Version) :
    Split (Join (replaceLines rs (Split content))) = replaceLines rs (Split content) := by
  apply Split_Join
  · intro hnil
    have := replaceLines_length rs (Split content)
    rw [hnil] at this
    exact Split_ne_nil content (List.length_eq_zero.mp this.symm)
  · intro l hl
    rw [replaceLines_eq_map] at hl
    obtain ⟨L, hL, rfl⟩ := List.mem_map.mp hl
    exact foldl_replaceLine_no_newline rs L (Split_no_newline content L hL) h

set_option maxRecDepth 100000 in
/-- C7 fails as stated: a replacement whose SHA holds a line feed turns the one
line of the file into two. -/
theorem C7_line_count_changes_with_line_feed_in_sha :
    writtenContent
        (ReplaceActionsInFile (exampleFS "      - uses: actions/checkout@v4".toList)
          "ci.yml".toList [⟨checkoutV4, "8f4b\n7f84".toList, "v4".toList⟩])
        "ci.yml".toList
      = some "      - uses: actions/checkout@8f4b\n7f84 # v4".toList ∧
    (Split "      - uses: actions/checkout@v4".toList).length = 1 ∧
    (Split "      - uses: actions/checkout@8f4b\n7f84 # v4".toList).length = 2 := by
  refine ⟨by decide, by decide, by decide⟩

/-- C7, amended: when the file can be read and written, `ReplaceActionsInFile`
returns no error.  When no line contains the FullUses of a replacement (so also
for an empty list) the content written is the content read.  When no SHA and no
Version of the list holds a line feed, the content written has as many
`"\n"`-separated lines as the content read, and a line that contains no FullUses
of the list is the same line at the same index. -/
theorem C7_unmatched_lines_are_unchanged
    (fs : FileSystem) (path content : Str) (rs : List Replacement)
    (hread : fs.files path = some content) (hwrite : fs.writable path = true) :
    ∃ (fs' : FileSystem) (content' : Str),
      ReplaceActionsInFile fs path rs = .ok fs' ∧ fs'.files path = some content' ∧
      ((∀ L ∈ Split content, ∀ r ∈ rs, Contains L r.Action.FullUses = false) →
        content' = content) ∧
      ((∀ r ∈ rs, '\n' ∉ r.SHA ∧ '\n' ∉ r.Version) →
        (Split content').length = (Split content).length ∧
        ∀ (i : Nat) (L : Str), (Split content)[i]? = some L →
          (∀ r ∈ rs, Contains L r.Action.FullUses = false) → (Split content')[i]? = some L) := by
  refine ⟨_, Join (replaceLines rs (Split content)),
    ReplaceActionsInFile_ok fs path content rs hread hwrite, write_files_self _ _ _, ?_, ?_⟩
  · intro h
    have : replaceLines rs (Split content) = Split content := by
      rw [replaceLines_eq_map]
      conv_rhs => rw [← List.map_id (Split content)]
      apply List.map_congr_left
      intro L hL
      exact foldl_replaceLine_of_no_match rs L (h L hL)
    rw [this, Join_Split]
  · intro h
    rw [Split_Join_replaceLines rs content h]
    refine ⟨replaceLines_length _ _, ?_⟩
    intro i L hL hno
    rw [replaceLines_eq_map, List.getElem?_map, hL]
    simp [foldl_replaceLine_of_no_match rs L hno]

set_option maxRecDepth 100000 in
/-- Witness of C7: a file of two lines, the first of which is rewritten. -/
theorem C7_unmatched_lines_are_unchanged_witness :
    ∃ (fs' : FileSystem) (content' : Str),
      ReplaceActionsInFile
          (exampleFS "      - uses: actions/checkout@v4\r\n      - run: make\r\n".toList)
          "ci.yml".toList [⟨checkoutV4, exampleSHA, "v4".toList⟩] = .ok fs' ∧
        fs'.files "ci.yml".toList = some content' ∧
        (Split content').length = 3 ∧
        (Split content')[1]? = some "      - run: make\r".toList := by
  obtain ⟨fs', content', h1, h2, -, h4⟩ := C7_unmatched_lines_are_unchanged
    (exampleFS "      - uses: actions/checkout@v4\r\n      - run: make\r\n".toList)
    "ci.yml".toList "      - uses: actions/checkout@v4\r\n      - run: make\r\n".toList
    [⟨checkoutV4, exampleSHA, "v4".toList⟩] (by decide) rfl
  have h5 := h4 (by decide)
  refine ⟨fs', content', h1, h2, ?_, ?_⟩
  · rw [h5.1]; decide
  · exact h5.2 1 "      - run: make\r".toList (by decide) (by decide)

/-! ## Applying the same replacements again -/

theorem split_at_unique_at (A B A' B' : Str) (h : A ++ '@' :: B = A' ++ '@' :: B')
    (hA : '@' ∉ A) (hB : '@' ∉ B) : A = A' ∧ B = B' := by
  rcases List.append_eq_append_iff.mp h with ⟨a', h1, h2⟩ | ⟨c', h1, h2⟩
  · cases a' with
    | nil => simp at h1 h2; exact ⟨h1.symm, h2⟩
    | cons x a'' =>
      simp only [List.cons_append, List.cons.injEq] at h2
      exact absurd (by rw [h2.2]; simp) hB
  · cases c' with
    | nil => simp at h1 h2; exact ⟨h1, h2.symm⟩
    | cons x c'' =>
      simp only [List.cons_append, List.cons.injEq] at h2
      exact absurd (by rw [h1, ← h2.1]; simp) hA

theorem matchHexCount_no_char (n : Nat) (s : Str) (c : Char) (hc : isLowerHex c = false)
    (h : matchHexCount n s = true) : c ∉ s := by
  intro hm
  have := ((matchHexCount_iff n s).mp h).2 c hm
  rw [hc] at this
  cases this

/-- A line with at most one `@` that a replacement of the list matches is
written so that no replacement of the list matches it any more. -/
theorem replaceLine_settles (rs : List Replacement)
    (hparse : ∀ r ∈ rs, ParserOutput r.Action)
    (hsha : ∀ r ∈ rs, shaRegex r.SHA = true)
    (hver : ∀ r ∈ rs, r.Version = r.Action.Ref)
    (hpre : ∀ r ∈ rs, ∀ r' ∈ rs, ¬ r'.Action.Ref <+: r.SHA ∧ ¬ r.SHA <+: r'.Action.Ref)
    (r : Replacement) (hr : r ∈ rs) (L : Str) (hcount : L.count '@' ≤ 1)
    (hc : Contains L r.Action.FullUses = true) :
    ∀ r' ∈ rs, Contains (replaceLine r L) r'.Action.FullUses = false := by
  obtain ⟨uses, fp, ln, hp⟩ := hparse r hr
  have hfull := parseActionString_FullUses uses fp ln r.Action hp
  have hold : oldUses r = r.Action.FullUses := by rw [hfull]; simp [oldUses]
  have hc' : Contains L (oldUses r) = true := by rw [hold]; exact hc
  obtain ⟨pre, post, h1, -, h3⟩ := Replace1_spec L (oldUses r) (newUses r) hc'
  have hL1 : replaceLine r L = pre ++ newUses r ++ post := by
    simp [replaceLine, hc, h3]
  rw [h1] at hcount
  simp only [oldUses, List.count_append, List.count_cons, beq_self_eq_true, if_true] at hcount
  have hpre0 : '@' ∉ pre := List.count_eq_zero.mp (by omega)
  have ho0 : '@' ∉ r.Action.Owner := List.count_eq_zero.mp (by omega)
  have hr0 : '@' ∉ r.Action.Repo := List.count_eq_zero.mp (by omega)
  have hf0 : '@' ∉ r.Action.Ref := List.count_eq_zero.mp (by omega)
  have hpost0 : '@' ∉ post := List.count_eq_zero.mp (by omega)
  have hS0 : '@' ∉ r.SHA := matchHexCount_no_char 40 r.SHA '@' (by decide) (hsha r hr)
  have hshape : replaceLine r L
      = (pre ++ r.Action.Owner ++ '/' :: r.Action.Repo) ++
          '@' :: (r.SHA ++ (' ' :: '#' :: ' ' :: r.Version ++ post)) := by
    rw [hL1]; simp [newUses]
  have hA : '@' ∉ pre ++ r.Action.Owner ++ '/' :: r.Action.Repo := by
    simp only [List.mem_append, List.mem_cons, not_or]
    exact ⟨⟨hpre0, ho0⟩, by decide, hr0⟩
  have hB : '@' ∉ r.SHA ++ (' ' :: '#' :: ' ' :: r.Version ++ post) := by
    rw [hver r hr]
    simp only [List.mem_append, List.mem_cons, not_or]
    have d1 : ¬ '@' = ' ' := by decide
    have d2 : ¬ '@' = '#' := by decide
    tauto
  intro r' hr'
  rw [Contains_false_iff]
  rintro ⟨p, q, hpq⟩
  obtain ⟨uses', fp', ln', hp'⟩ := hparse r' hr'
  have hfull' := parseActionString_FullUses uses' fp' ln' r'.Action hp'
  rw [hfull', hshape] at hpq
  have hpq' : (pre ++ r.Action.Owner ++ '/' :: r.Action.Repo) ++
        '@' :: (r.SHA ++ (' ' :: '#' :: ' ' :: r.Version ++ post))
      = (p ++ r'.Action.Owner ++ '/' :: r'.Action.Repo) ++ '@' :: (r'.Action.Ref ++ q) := by
    rw [← hpq]; simp
  obtain ⟨-, hBeq⟩ := split_at_unique_at _ _ _ _ hpq' hA hB
  have hp1 : r.SHA <+: r.SHA ++ (' ' :: '#' :: ' ' :: r.Version ++ post) := List.prefix_append _ _
  have hp2 : r'.Action.Ref <+: r.SHA ++ (' ' :: '#' :: ' ' :: r.Version ++ post) := by
    rw [hBeq]; exact List.prefix_append _ _
  rcases List.prefix_or_prefix_of_prefix hp2 hp1 with h | h
  · exact (hpre r hr r' hr').1 h
  · exact (hpre r hr r' hr').2 h

/-- After the loops no replacement of the list matches the line. -/
theorem foldl_replaceLine_settled (rs : List Replacement)
    (hparse : ∀ r ∈ rs, ParserOutput r.Action)
    (hsha : ∀ r ∈ rs, shaRegex r.SHA = true)
    (hver : ∀ r ∈ rs, r.Version = r.Action.Ref)
    (hpre : ∀ r ∈ rs, ∀ r' ∈ rs, ¬ r'.Action.Ref <+: r.SHA ∧ ¬ r.SHA <+: r'.Action.Ref)
    (L : Str) (hcount : L.count '@' ≤ 1) :
    ∀ r' ∈ rs, Contains (rs.foldl (fun l r => replaceLine r l) L) r'.Action.FullUses = false := by
  have key : ∀ (rs' : List Replacement), (∀ r ∈ rs', r ∈ rs) → ∀ (L : Str), L.count '@' ≤ 1 →
      (rs'.foldl (fun l r => replaceLine r l) L = L ∧
          ∀ r ∈ rs', Contains L r.Action.FullUses = false) ∨
        ∀ r' ∈ rs, Contains (rs'.foldl (fun l r => replaceLine r l) L) r'.Action.FullUses
          = false := by
    intro rs'
    induction rs' with
    | nil => intro _ L _; exact Or.inl ⟨rfl, by simp⟩
    | cons r rest ih =>
      intro hsub L hL
      have hrest : ∀ r ∈ rest, r ∈ rs := fun x hx => hsub x (List.mem_cons_of_mem _ hx)
      rw [List.foldl_cons]
      cases hc : Contains L r.Action.FullUses with
      | true =>
        right
        have hset := replaceLine_settles rs hparse hsha hver hpre r
          (hsub r (List.mem_cons_self _ _)) L hL hc
        rw [foldl_replaceLine_of_no_match rest _ (fun x hx => hset x (hrest x hx))]
        exact hset
      | false =>
        have hrl : replaceLine r L = L := by simp [replaceLine, hc]
        rw [hrl]
        rcases ih hrest L hL with ⟨h1, h2⟩ | h
        · left
          refine ⟨h1, ?_⟩
          intro x hx
          rcases List.mem_cons.mp hx with rfl | hx
          · exact hc
          · exact h2 x hx
        · exact Or.inr h
  rcases key rs (fun _ h => h) L hcount with ⟨h1, h2⟩ | h
  · rw [h1]; exact h2
  · exact h

set_option maxRecDepth 100000 in
/-- C5 fails as stated.  Only the first occurrence on a line is replaced, so a
line that holds the reference twice is matched again by a second run; and a ref
that is the beginning of the SHA it resolves to is found again in the rewritten
line. -/
theorem C5_second_run_rewrites_again :
    parseActionString "actions/checkout@v4".toList "ci.yml".toList 1 = some checkoutV4 ∧
      checkoutV4.IsPinned = false ∧ shaRegex exampleSHA = true ∧
      writtenContent
          (ReplaceActionsInFile
            (exampleFS "      - uses: actions/checkout@v4 # not actions/checkout@v4.0.0".toList)
            "ci.yml".toList [⟨checkoutV4, exampleSHA, "v4".toList⟩])
          "ci.yml".toList
        = some ("      - uses: actions/checkout@8f4b7f84864484a7bf31766abe9204da3cbe65b3 # v4" ++
            " # not actions/checkout@v4.0.0").toList ∧
      writtenContent
          (replaceTwice
            (exampleFS "      - uses: actions/checkout@v4 # not actions/checkout@v4.0.0".toList)
            "ci.yml".toList [⟨checkoutV4, exampleSHA, "v4".toList⟩])
          "ci.yml".toList
        = some ("      - uses: actions/checkout@8f4b7f84864484a7bf31766abe9204da3cbe65b3 # v4" ++
            " # not actions/checkout@8f4b7f84864484a7bf31766abe9204da3cbe65b3 # v4.0.0").toList ∧
      (parseActionString "actions/checkout@8f4b7f8".toList "ci.yml".toList 1).map
          (fun a => (a.IsPinned,
            writtenContent
              (ReplaceActionsInFile (exampleFS "      - uses: actions/checkout@8f4b7f8".toList)
                "ci.yml".toList [⟨a, exampleSHA, "8f4b7f8".toList⟩])
              "ci.yml".toList,
            writtenContent
              (replaceTwice (exampleFS "      - uses: actions/checkout@8f4b7f8".toList)
                "ci.yml".toList [⟨a, exampleSHA, "8f4b7f8".toList⟩])
              "ci.yml".toList))
        = some (false,
            some ("      - uses: actions/checkout@8f4b7f84864484a7bf31766abe9204da3cbe65b3" ++
              " # 8f4b7f8").toList,
            some ("      - uses: actions/checkout@8f4b7f84864484a7bf31766abe9204da3cbe65b3" ++
              " # 8f4b7f84864484a7bf31766abe9204da3cbe65b3 # 8f4b7f8").toList) := by
  refine ⟨by decide, by decide, by decide, by decide, by decide, by decide⟩

theorem at_slash_at_sublist_iff_filter (M : Str) :
    ['@', '/', '@'].Sublist M ↔
      ['@', '/', '@'].Sublist (M.filter (fun c => c = '@' || c = '/')) := by
  constructor
  · intro h
    have := h.filter (fun c => c = '@' || c = '/')
    simpa using this
  · intro h
    exact h.trans (List.filter_sublist _)

/-- On a line without `@`, `/`, `@` in this order, the `@` that closes
`owner/repo` is the first `@` of the line. -/
theorem no_at_before_separator (L X Y Z : Str) (hno : ¬ ['@', '/', '@'].Sublist L)
    (hL : L = X ++ '/' :: (Y ++ '@' :: Z)) (hY : '@' ∉ Y) : '@' ∉ X ++ '/' :: Y := by
  have hX : '@' ∉ X := by
    intro hmem
    apply hno
    rw [hL]
    have h1 : ['@'].Sublist X := List.singleton_sublist.mpr hmem
    have h2 : ['@'].Sublist (Y ++ '@' :: Z) := List.singleton_sublist.mpr (by simp)
    have h3 : ['/', '@'].Sublist ('/' :: (Y ++ '@' :: Z)) := h2.cons₂ '/'
    exact h1.append h3
  simp only [List.mem_append, List.mem_cons, not_or]
  exact ⟨hX, by decide, hY⟩

/-- A matched line without `@`, `/`, `@` in this order is written so that no
replacement of the list matches it any more. -/
theorem replaceLine_settles_of_order (rs : List Replacement)
    (hparse : ∀ r ∈ rs, ParserOutput r.Action)
    (hsha : ∀ r ∈ rs, shaRegex r.SHA = true)
    (hver : ∀ r ∈ rs, r.Version = r.Action.Ref)
    (hpre : ∀ r ∈ rs, ∀ r' ∈ rs, ¬ r'.Action.Ref <+: r.SHA ∧ ¬ r.SHA <+: r'.Action.Ref)
    (r : Replacement) (hr : r ∈ rs) (L : Str) (hno : ¬ ['@', '/', '@'].Sublist L)
    (hc : Contains L r.Action.FullUses = true) :
    ∀ r' ∈ rs, Contains (replaceLine r L) r'.Action.FullUses = false := by
  obtain ⟨uses, fp, ln, hp⟩ := hparse r hr
  have hfull := parseActionString_FullUses uses fp ln r.Action hp
  have hrepo : '@' ∉ r.Action.Repo :=
    ((actionRegex_eq_some _ _ _ _).mp (parseActionString_eq_some uses fp ln r.Action hp).1).2.2.2.2.1
  have hold : oldUses r = r.Action.FullUses := by rw [hfull]; simp [oldUses]
  have hc' : Contains L (oldUses r) = true := by rw [hold]; exact hc
  obtain ⟨pre, post, h1, -, h3⟩ := Replace1_spec L (oldUses r) (newUses r) hc'
  have hL1 : replaceLine r L = pre ++ newUses r ++ post := by
    simp [replaceLine, hc, h3]
  have hLshape : L = (pre ++ r.Action.Owner) ++
      '/' :: (r.Action.Repo ++ '@' :: (r.Action.Ref ++ post)) := by
    rw [h1]; simp [oldUses]
  have hA : '@' ∉ (pre ++ r.Action.Owner) ++ '/' :: r.Action.Repo :=
    no_at_before_separator L _ _ _ hno hLshape hrepo
  have hS : ∀ c ∈ r.SHA, isLowerHex c = true := ((matchHexCount_iff 40 r.SHA).mp (hsha r hr)).2
  have hSfilter : r.SHA.filter (fun c => c = '@' || c = '/') = [] := by
    rw [List.filter_eq_nil_iff]
    intro c hcm hcond
    have hhex := hS c hcm
    simp only [Bool.or_eq_true, decide_eq_true_eq] at hcond
    rcases hcond with rfl | rfl
    · exact absurd hhex (by decide)
    · exact absurd hhex (by decide)
  have hshape : replaceLine r L
      = ((pre ++ r.Action.Owner) ++ '/' :: r.Action.Repo) ++
          '@' :: (r.SHA ++ (' ' :: '#' :: ' ' :: (r.Action.Ref ++ post))) := by
    rw [hL1]; simp [newUses, hver r hr]
  have hno1 : ¬ ['@', '/', '@'].Sublist (replaceLine r L) := by
    rw [at_slash_at_sublist_iff_filter] at hno ⊢
    have hfeq : (replaceLine r L).filter (fun c => c = '@' || c = '/')
        = L.filter (fun c => c = '@' || c = '/') := by
      rw [hshape, hLshape]
      simp [List.filter_append, List.filter_cons, hSfilter]
    rw [hfeq]
    exact hno
  intro r' hr'
  rw [Contains_false_iff]
  rintro ⟨p, q, hpq⟩
  obtain ⟨uses', fp', ln', hp'⟩ := hparse r' hr'
  have hfull' := parseActionString_FullUses uses' fp' ln' r'.Action hp'
  have hrepo' : '@' ∉ r'.Action.Repo :=
    ((actionRegex_eq_some _ _ _ _).mp
      (parseActionString_eq_some uses' fp' ln' r'.Action hp').1).2.2.2.2.1
  have hshape' : replaceLine r L
      = (p ++ r'.Action.Owner) ++ '/' :: (r'.Action.Repo ++ '@' :: (r'.Action.Ref ++ q)) := by
    rw [← hpq, hfull']; simp
  have hA' : '@' ∉ (p ++ r'.Action.Owner) ++ '/' :: r'.Action.Repo :=
    no_at_before_separator _ _ _ _ hno1 hshape' hrepo'
  have hcut1 := (cut_eq_some '@' (replaceLine r L) _ _).mpr ⟨hshape, hA⟩
  have hcut2 := (cut_eq_some '@' (replaceLine r L)
    ((p ++ r'.Action.Owner) ++ '/' :: r'.Action.Repo) (r'.Action.Ref ++ q)).mpr
    ⟨by rw [hshape']; simp, hA'⟩
  rw [hcut1] at hcut2
  simp only [Option.some.injEq, Prod.mk.injEq] at hcut2
  have hBeq := hcut2.2
  have hp1 : r.SHA <+: r.SHA ++ (' ' :: '#' :: ' ' :: (r.Action.Ref ++ post)) :=
    List.prefix_append _ _
  have hp2 : r'.Action.Ref <+: r.SHA ++ (' ' :: '#' :: ' ' :: (r.Action.Ref ++ post)) := by
    rw [hBeq]; exact List.prefix_append _ _
  rcases List.prefix_or_prefix_of_prefix hp2 hp1 with h | h
  · exact (hpre r hr r' hr').1 h
  · exact (hpre r hr r' hr').2 h

/-- After the loops no replacement of the list matches the line, when the
line is matched by none or does not hold `@`, `/`, `@` in this order. -/
theorem foldl_replaceLine_settled_of_order (rs : List Replacement)
    (hparse : ∀ r ∈ rs, ParserOutput r.Action)
    (hsha : ∀ r ∈ rs, shaRegex r.SHA = true)
    (hver : ∀ r ∈ rs, r.Version = r.Action.Ref)
    (hpre : ∀ r ∈ rs, ∀ r' ∈ rs, ¬ r'.Action.Ref <+: r.SHA ∧ ¬ r.SHA <+: r'.Action.Ref)
    (L : Str)
    (hno : (∃ r ∈ rs, Contains L r.Action.FullUses = true) → ¬ ['@', '/', '@'].Sublist L) :
    ∀ r' ∈ rs, Contains (rs.foldl (fun l r => replaceLine r l) L) r'.Action.FullUses = false := by
  have key : ∀ (rs' : List Replacement), (∀ r ∈ rs', r ∈ rs) →
      (rs'.foldl (fun l r => replaceLine r l) L = L ∧
          ∀ r ∈ rs', Contains L r.Action.FullUses = false) ∨
        ∀ r' ∈ rs, Contains (rs'.foldl (fun l r => replaceLine r l) L) r'.Action.FullUses
          = false := by
    intro rs'
    induction rs' with
    | nil => intro _; exact Or.inl ⟨rfl, by simp⟩
    | cons r rest ih =>
      intro hsub
      have hrest : ∀ r ∈ rest, r ∈ rs := fun x hx => hsub x (List.mem_cons_of_mem _ hx)
      rw [List.foldl_cons]
      cases hc : Contains L r.Action.FullUses with
      | true =>
        right
        have hrs := hsub r (List.mem_cons_self _ _)
        have hset := replaceLine_settles_of_order rs hparse hsha hver hpre r hrs L
          (hno ⟨r, hrs, hc⟩) hc
        rw [foldl_replaceLine_of_no_match rest _ (fun x hx => hset x (hrest x hx))]
        exact hset
      | false =>
        have hrl : replaceLine r L = L := by simp [replaceLine, hc]
        rw [hrl]
        rcases ih hrest with ⟨h1, h2⟩ | h
        · left
          refine ⟨h1, ?_⟩
          intro x hx
          rcases List.mem_cons.mp hx with rfl | hx
          · exact hc
          · exact h2 x hx
        · exact Or.inr h
  rcases key rs (fun _ h => h) with ⟨h1, h2⟩ | h
  · rw [h1]; exact h2
  · exact h

/-- C5, amended: let `rs` be replacements whose actions are unpinned parser
outputs, whose SHA is 40 lowercase hex characters, whose Version is the action's
Ref (as the resolver returns it), and such that no Ref of the list is the
beginning of a SHA of the list or begins with one; and let no line of the file
that contains the FullUses of a replacement of `rs` hold the characters `@`,
`/`, `@` in this order, as a line with the reference twice does (a line with one
`@` never does, and the other lines of the file are free).  Then a second run of
`ReplaceActionsInFile` with `rs` on the rewritten file matches no line and writes
the same content. -/
theorem C5_second_run_leaves_rewritten_file
    (fs : FileSystem) (path content : Str) (rs : List Replacement)
    (hread : fs.files path = some content) (hwrite : fs.writable path = true)
    (hparse : ∀ r ∈ rs, ParserOutput r.Action)
    (_hunpinned : ∀ r ∈ rs, r.Action.IsPinned = false)
    (hsha : ∀ r ∈ rs, shaRegex r.SHA = true)
    (hver : ∀ r ∈ rs, r.Version = r.Action.Ref)
    (hpre : ∀ r ∈ rs, ∀ r' ∈ rs, ¬ r'.Action.Ref <+: r.SHA ∧ ¬ r.SHA <+: r'.Action.Ref)
    (hlines : ∀ L ∈ Split content, (∃ r ∈ rs, Contains L r.Action.FullUses = true) →
      ¬ ['@', '/', '@'].Sublist L) :
    ∃ (fs1 fs2 : FileSystem) (content1 : Str),
      ReplaceActionsInFile fs path rs = .ok fs1 ∧ fs1.files path = some content1 ∧
      (∀ L ∈ Split content1, ∀ r ∈ rs, Contains L r.Action.FullUses = false) ∧
      ReplaceActionsInFile fs1 path rs = .ok fs2 ∧ fs2.files path = some content1 ∧
      replaceTwice fs path rs = .ok fs2 := by
  have hnl : ∀ r ∈ rs, '\n' ∉ r.SHA ∧ '\n' ∉ r.Version := by
    intro r hr
    refine ⟨matchHexCount_no_char 40 r.SHA '\n' (by decide) (hsha r hr), ?_⟩
    obtain ⟨uses, fp, ln, hp⟩ := hparse r hr
    rw [hver r hr]
    exact ((actionRegex_eq_some _ _ _ _).mp
      (parseActionString_eq_some uses fp ln r.Action hp).1).2.2.2.2.2.2
  have hsplit := Split_Join_replaceLines rs content hnl
  have hsettled : ∀ L ∈ Split (Join (replaceLines rs (Split content))), ∀ r ∈ rs,
      Contains L r.Action.FullUses = false := by
    intro L hL
    rw [hsplit, replaceLines_eq_map] at hL
    obtain ⟨L0, hL0, rfl⟩ := List.mem_map.mp hL
    exact foldl_replaceLine_settled_of_order rs hparse hsha hver hpre L0 (hlines L0 hL0)
  have hsame : Join (replaceLines rs (Split (Join (replaceLines rs (Split content)))))
      = Join (replaceLines rs (Split content)) := by
    have : replaceLines rs (Split (Join (replaceLines rs (Split content))))
        = Split (Join (replaceLines rs (Split content))) := by
      rw [replaceLines_eq_map]
      conv_rhs => rw [← List.map_id (Split (Join (replaceLines rs (Split content))))]
      apply List.map_congr_left
      intro L hL
      exact foldl_replaceLine_of_no_match rs L (hsettled L hL)
    rw [this, Join_Split]
  have h1 := ReplaceActionsInFile_ok fs path content rs hread hwrite
  have h2 := ReplaceActionsInFile_ok
    (fs.write path (Join (replaceLines rs (Split content)))) path
    (Join (replaceLines rs (Split content))) rs (write_files_self _ _ _) hwrite
  rw [hsame] at h2
  refine ⟨_, _, Join (replaceLines rs (Split content)), h1, write_files_self _ _ _, hsettled,
    h2, write_files_self _ _ _, ?_⟩
  simp only [replaceTwice, h1, h2]

set_option maxRecDepth 100000 in
/-- Witness of C5: a workflow with a mention after the first reference and a
line with two `@` that holds no reference, and the replacements of its two
actions; the second run writes what the first one wrote. -/
theorem C5_second_run_leaves_rewritten_file_witness :
    (∃ (fs1 fs2 : FileSystem) (content1 : Str),
      ReplaceActionsInFile (exampleFS exampleWorkflowWithMentions) "ci.yml".toList
          exampleReplacements = .ok fs1 ∧ fs1.files "ci.yml".toList = some content1 ∧
      (∀ L ∈ Split content1, ∀ r ∈ exampleReplacements,
        Contains L r.Action.FullUses = false) ∧
      ReplaceActionsInFile fs1 "ci.yml".toList exampleReplacements = .ok fs2 ∧
      fs2.files "ci.yml".toList = some content1 ∧
      replaceTwice (exampleFS exampleWorkflowWithMentions) "ci.yml".toList exampleReplacements
        = .ok fs2) ∧
    writtenContent
        (replaceTwice (exampleFS exampleWorkflowWithMentions) "ci.yml".toList
          exampleReplacements) "ci.yml".toList
      = some ("      - uses: actions/checkout@8f4b7f84864484a7bf31766abe9204da3cbe65b3 # v4" ++
          " # ask @octocat\n" ++
          "      - uses: actions/setup-go@0a12ed9d6a96ab950c8f026ed9f722fe0da7ef32 # v5\n" ++
          "      - run: npm install @types/node @types/react\n").toList :=
  ⟨C5_second_run_leaves_rewritten_file (exampleFS exampleWorkflowWithMentions) "ci.yml".toList
    exampleWorkflowWithMentions exampleReplacements (by decide) rfl
    (by
      intro r hr
      simp only [exampleReplacements, List.mem_cons, List.mem_singleton, List.not_mem_nil,
        or_false] at hr
      rcases hr with rfl | rfl
      · exact ⟨"actions/checkout@v4".toList, "ci.yml".toList, 1, by decide⟩
      · exact ⟨"actions/setup-go@v5".toList, "ci.yml".toList, 2, by decide⟩)
    (by decide) (by decide) (by decide) (by decide) (by decide),
   by decide⟩

/-! ## Rate-limit classification and the end of a resolution pass -/

set_option maxRecDepth 100000 in
/-- C17: `IsRateLimitError(nil)` is false, and for an error with message `msg`
it is true exactly when `msg` contains `rate limit` or contains `403`; the test
is case-sensitive. -/
theorem C17_rate_limit_error_is_a_substring_test :
    IsRateLimitError none = false ∧
      (∀ msg : Str, IsRateLimitError (some msg) = true ↔
        "rate limit".toList <:+: msg ∨ "403".toList <:+: msg) ∧
      IsRateLimitError (some "API Rate Limit exceeded".toList) = false := by
  refine ⟨rfl, ?_, by decide⟩
  intro msg
  simp only [IsRateLimitError, Bool.or_eq_true, Contains_iff]

theorem resolveLoop_without_rate_limit {σ : Type} (api : GitHubAPI σ) (c : Client)
    (actions : List ActionReference) (w : σ) (replacements : List Replacement)
    (lastError : Option Str) (calls : List ResolveCall)
    (hrl : ∀ r ∈ resolveResults api c actions w, IsRateLimitError r.Error = false) :
    (resolveLoop api c actions w replacements lastError calls).msg =
      if (replacements ++ resolvedReplacements actions (resolveResults api c actions w)).length = 0 ∧
          lastFailure (resolveResults api c actions w) lastError ≠ none then
        Msg.resolveCompleteMsg [] (lastFailure (resolveResults api c actions w) lastError)
      else
        Msg.resolveCompleteMsg
          (replacements ++ resolvedReplacements actions (resolveResults api c actions w)) none := by
  induction actions generalizing w replacements lastError calls with
  | nil =>
    simp only [resolveLoop, resolveResults, resolvedReplacements, lastFailure, List.foldl_nil,
      List.append_nil]
    split <;> rfl
  | cons a rest ih =>
    cases hres : ResolveAction api c w a.Owner a.Repo a.Ref with
    | mk resolved w' =>
      have hrr : resolveResults api c (a :: rest) w = resolved :: resolveResults api c rest w' := by
        simp [resolveResults, hres]
      rw [hrr] at hrl ⊢
      have h0 := hrl resolved (List.mem_cons_self _ _)
      have hrest : ∀ r ∈ resolveResults api c rest w', IsRateLimitError r.Error = false :=
        fun r hr => hrl r (List.mem_cons_of_mem _ hr)
      cases herr : resolved.Error with
      | none =>
        have := ih w' (replacements ++ [⟨a, resolved.SHA, resolved.Version⟩]) lastError
          (calls ++ [⟨a.Owner, a.Repo, a.Ref⟩]) hrest
        simp only [resolveLoop, hres, herr, resolvedReplacements, lastFailure, List.foldl_cons]
        simpa [lastFailure] using this
      | some e =>
        rw [herr] at h0
        have := ih w' replacements (some e) (calls ++ [⟨a.Owner, a.Repo, a.Ref⟩]) hrest
        simp only [resolveLoop, hres, herr, h0, resolvedReplacements, lastFailure, List.foldl_cons]
        simpa [lastFailure] using this

theorem resolvedReplacements_eq_filter (actions : List ActionReference)
    (results : List ResolvedAction) :
    resolvedReplacements actions results
      = ((actions.zip results).filter (fun p => p.2.Error.isNone)).map
          (fun p => ({ Action := p.1, SHA := p.2.SHA, Version := p.2.Version } : Replacement)) := by
  induction actions generalizing results with
  | nil => simp [resolvedReplacements]
  | cons a as ih =>
    cases results with
    | nil => simp [resolvedReplacements]
    | cons r rs =>
      cases herr : r.Error with
      | none => simp [resolvedReplacements, herr, ih, List.filter_cons]
      | some e => simp [resolvedReplacements, herr, ih, List.filter_cons]

theorem resolvedReplacements_ne_nil {σ : Type} (api : GitHubAPI σ) (c : Client)
    (actions : List ActionReference) (w : σ)
    (hsome : ∃ r ∈ resolveResults api c actions w, r.Error = none) :
    resolvedReplacements actions (resolveResults api c actions w) ≠ [] := by
  induction actions generalizing w with
  | nil => obtain ⟨r, hr, -⟩ := hsome; simp [resolveResults] at hr
  | cons a rest ih =>
    cases hres : ResolveAction api c w a.Owner a.Repo a.Ref with
    | mk resolved w' =>
      have hrr : resolveResults api c (a :: rest) w = resolved :: resolveResults api c rest w' := by
        simp [resolveResults, hres]
      rw [hrr] at hsome ⊢
      cases herr : resolved.Error with
      | none => simp [resolvedReplacements, herr]
      | some e =>
        simp only [resolvedReplacements, herr]
        apply ih
        obtain ⟨r, hr, hnone⟩ := hsome
        rcases List.mem_cons.mp hr with rfl | hr
        · rw [herr] at hnone; cases hnone
        · exact ⟨r, hr, hnone⟩

theorem resolvedReplacements_of_all_failed (actions : List ActionReference)
    (results : List ResolvedAction) (hall : ∀ r ∈ results, r.Error ≠ none) :
    resolvedReplacements actions results = [] := by
  induction actions generalizing results with
  | nil => simp [resolvedReplacements]
  | cons a as ih =>
    cases results with
    | nil => simp [resolvedReplacements]
    | cons r rs =>
      cases herr : r.Error with
      | none => exact absurd herr (hall r (List.mem_cons_self _ _))
      | some e =>
        simp only [resolvedReplacements, herr]
        exact ih rs (fun x hx => hall x (List.mem_cons_of_mem _ hx))

theorem lastFailure_of_all_failed (results : List ResolvedAction) (init : Option Str)
    (hne : results ≠ []) (hall : ∀ r ∈ results, r.Error ≠ none) :
    lastFailure results init = results.getLast?.bind (fun r => r.Error) ∧
      lastFailure results init ≠ none := by
  induction results generalizing init with
  | nil => exact absurd rfl hne
  | cons r rs ih =>
    cases hr : r.Error with
    | none => exact absurd hr (hall r (List.mem_cons_self _ _))
    | some e =>
      cases rs with
      | nil => simp [lastFailure, hr]
      | cons r' rs' =>
        have := ih (some e) (by simp) (fun x hx => hall x (List.mem_cons_of_mem _ hx))
        simp only [lastFailure, List.foldl_cons, hr] at this ⊢
        simpa [List.getLast?_cons_cons] using this

/-- C18: when no result of the pass is classified as a rate limit and at least
one action resolves, the pass returns no error and the replacements of exactly
the actions that resolved, in their order, each with the SHA and version of its
result; handling the message sets the state to `Confirming`, stores the list and
sets `totalCount` to its length, which is at least 1. -/
theorem C18_partial_success_goes_to_confirming
    {σ : Type} (env : Env) (api : GitHubAPI σ) (m : Model) (w : σ)
    (hrl : ∀ r ∈ resolveResults api m.githubClient m.actions w, IsRateLimitError r.Error = false)
    (hsome : ∃ r ∈ resolveResults api m.githubClient m.actions w, r.Error = none) :
    ∃ replacements : List Replacement,
      (resolveActions api m w).msg = Msg.resolveCompleteMsg replacements none ∧
      replacements
        = (((m.actions.zip (resolveResults api m.githubClient m.actions w)).filter
            (fun p => p.2.Error.isNone)).map
            (fun p => ({ Action := p.1, SHA := p.2.SHA, Version := p.2.Version } : Replacement))) ∧
      (replacements.map (fun r => r.Action)).Sublist m.actions ∧
      (Update env m (resolveActions api m w).msg).1.state = State.StateConfirming ∧
      (Update env m (resolveActions api m w).msg).1.replacements = replacements ∧
      (Update env m (resolveActions api m w).msg).1.totalCount = replacements.length ∧
      1 ≤ replacements.length := by
  have hmsg := resolveLoop_without_rate_limit api m.githubClient m.actions w [] none [] hrl
  have hne := resolvedReplacements_ne_nil api m.githubClient m.actions w hsome
  have hlen : ¬ (([] : List Replacement) ++ resolvedReplacements m.actions
      (resolveResults api m.githubClient m.actions w)).length = 0 := by
    simpa using hne
  rw [if_neg (fun h => hlen h.1), List.nil_append] at hmsg
  have hmsg' : (resolveActions api m w).msg = Msg.resolveCompleteMsg
      (resolvedReplacements m.actions (resolveResults api m.githubClient m.actions w)) none := hmsg
  refine ⟨_, hmsg', resolvedReplacements_eq_filter _ _, ?_, ?_, ?_, ?_, ?_⟩
  · rw [resolvedReplacements_eq_filter, List.map_map]
    have h1 : ((m.actions.zip (resolveResults api m.githubClient m.actions w)).filter
        (fun p => p.2.Error.isNone)).Sublist
        (m.actions.zip (resolveResults api m.githubClient m.actions w)) := List.filter_sublist _
    have h2 := h1.map (fun p => p.1)
    have h3 : ((m.actions.zip (resolveResults api m.githubClient m.actions w)).map
        (fun p => p.1)) = m.actions := by
      rw [← List.unzip_fst, List.unzip_zip]
      · rw [resolveResults_length]
    rw [h3] at h2
    exact h2
  · rw [hmsg']; simp [Update, handleResolveComplete]
  · rw [hmsg']; simp [Update, handleResolveComplete]
  · rw [hmsg']; simp [Update, handleResolveComplete]
  · exact Nat.one_le_iff_ne_zero.mpr (fun h => hne (List.length_eq_zero.mp h))

/-- C19: for a non-empty list of actions of which no result is classified as a
rate limit, handling the message of the pass gives state `Error` exactly when
every resolution failed, and the error stored in the model is then the error of
the last action of the list. -/
theorem C19_error_only_when_every_resolution_failed
    {σ : Type} (env : Env) (api : GitHubAPI σ) (m : Model) (w : σ)
    (hne : m.actions ≠ [])
    (hrl : ∀ r ∈ resolveResults api m.githubClient m.actions w, IsRateLimitError r.Error = false) :
    ((Update env m (resolveActions api m w).msg).1.state = State.StateError ↔
        ∀ r ∈ resolveResults api m.githubClient m.actions w, r.Error ≠ none) ∧
      ((∀ r ∈ resolveResults api m.githubClient m.actions w, r.Error ≠ none) →
        (Update env m (resolveActions api m w).msg).1.err
            = (resolveResults api m.githubClient m.actions w).getLast?.bind (fun r => r.Error) ∧
          (Update env m (resolveActions api m w).msg).1.err ≠ none) := by
  have hmsg := resolveLoop_without_rate_limit api m.githubClient m.actions w [] none [] hrl
  rw [List.nil_append] at hmsg
  have hresne : resolveResults api m.githubClient m.actions w ≠ [] := by
    intro h
    have := resolveResults_length api m.githubClient m.actions w
    rw [h] at this
    exact hne (List.length_eq_zero.mp this.symm)
  have hfail : (∀ r ∈ resolveResults api m.githubClient m.actions w, r.Error ≠ none) →
      (Update env m (resolveActions api m w).msg).1.state = State.StateError ∧
        (Update env m (resolveActions api m w).msg).1.err
            = (resolveResults api m.githubClient m.actions w).getLast?.bind (fun r => r.Error) ∧
          (Update env m (resolveActions api m w).msg).1.err ≠ none := by
    intro hall
    obtain ⟨hlast, hsome⟩ := lastFailure_of_all_failed _ none hresne hall
    have hnil := resolvedReplacements_of_all_failed m.actions _ hall
    rw [hnil, if_pos ⟨rfl, hsome⟩] at hmsg
    have hmsg' : (resolveActions api m w).msg = Msg.resolveCompleteMsg []
        (lastFailure (resolveResults api m.githubClient m.actions w) none) := hmsg
    obtain ⟨r, hr⟩ := List.getLast?_eq_some_iff.mpr
      ⟨_, (List.dropLast_append_getLast hresne).symm⟩ |> fun h => (⟨_, h⟩ : ∃ r, _ = some r)
    have hrmem : r ∈ resolveResults api m.githubClient m.actions w :=
      List.mem_of_getLast?_eq_some hr
    cases he : lastFailure (resolveResults api m.githubClient m.actions w) none with
    | none => exact absurd he hsome
    | some e =>
      have hre : r.Error = some e := by
        rw [hlast, hr] at he
        simpa using he
      have hnrl : IsRateLimitError (some e) = false := by rw [← hre]; exact hrl r hrmem
      rw [hmsg', he]
      rw [hlast] at he
      simp [Update, handleResolveComplete, hnrl, he]
  refine ⟨⟨?_, fun hall => (hfail hall).1⟩, fun hall => (hfail hall).2⟩
  intro hstate
  by_contra hnot
  push_neg at hnot
  obtain ⟨r, hr, hnone⟩ := hnot
  have hne' := resolvedReplacements_ne_nil api m.githubClient m.actions w ⟨r, hr, hnone⟩
  have hlen : ¬ (resolvedReplacements m.actions
      (resolveResults api m.githubClient m.actions w)).length = 0 := by
    simpa using hne'
  rw [if_neg (fun h => hlen h.1)] at hmsg
  have hmsg' : (resolveActions api m w).msg = Msg.resolveCompleteMsg
      (resolvedReplacements m.actions (resolveResults api m.githubClient m.actions w)) none := hmsg
  rw [hmsg'] at hstate
  simp [Update, handleResolveComplete] at hstate

set_option maxRecDepth 100000 in
/-- Witness of C18: three actions of which the second is not found. -/
theorem C18_partial_success_goes_to_confirming_witness :
    (Update exampleEnv (exampleModel State.StateResolving)
        (resolveActions exampleAPIOneMissing (exampleModel State.StateResolving) 0).msg).1.state
      = State.StateConfirming ∧
    (Update exampleEnv (exampleModel State.StateResolving)
        (resolveActions exampleAPIOneMissing (exampleModel State.StateResolving) 0).msg).1.replacements
      = [⟨exampleAction "checkout".toList, exampleSHA, "main".toList⟩,
          ⟨exampleAction "setup-go".toList, exampleSHA, "main".toList⟩] ∧
    (Update exampleEnv (exampleModel State.StateResolving)
        (resolveActions exampleAPIOneMissing (exampleModel State.StateResolving) 0).msg).1.totalCount
      = 2 := by
  have hres : resolveResults exampleAPIOneMissing (exampleModel State.StateResolving).githubClient
      (exampleModel State.StateResolving).actions 0
      = [⟨exampleSHA, "main".toList, none⟩, ⟨[], [], some "404 Not Found".toList⟩,
          ⟨exampleSHA, "main".toList, none⟩] := by decide
  obtain ⟨replacements, -, h2, -, h4, h5, h6, -⟩ :=
    C18_partial_success_goes_to_confirming exampleEnv exampleAPIOneMissing
      (exampleModel State.StateResolving) 0 (by rw [hres]; decide)
      ⟨⟨exampleSHA, "main".toList, none⟩, by rw [hres]; decide, rfl⟩
  rw [hres] at h2
  have h2' : replacements = [⟨exampleAction "checkout".toList, exampleSHA, "main".toList⟩,
      ⟨exampleAction "setup-go".toList, exampleSHA, "main".toList⟩] := by
    rw [h2]; decide
  refine ⟨h4, ?_, ?_⟩
  · rw [h5, h2']
  · rw [h6, h2']; rfl

set_option maxRecDepth 100000 in
/-- Witness of C19: three actions, none of them found; the error kept is the
one of the third call. -/
theorem C19_error_only_when_every_resolution_failed_witness :
    (Update exampleEnv (exampleModel State.StateResolving)
        (resolveActions exampleAPIAllMissing (exampleModel State.StateResolving) 0).msg).1.state
      = State.StateError ∧
    (Update exampleEnv (exampleModel State.StateResolving)
        (resolveActions exampleAPIAllMissing (exampleModel State.StateResolving) 0).msg).1.err
      = some "404 Not Found, call 2".toList := by
  have hres : resolveResults exampleAPIAllMissing (exampleModel State.StateResolving).githubClient
      (exampleModel State.StateResolving).actions 0
      = [⟨[], [], some "404 Not Found, call 0".toList⟩,
          ⟨[], [], some "404 Not Found, call 1".toList⟩,
          ⟨[], [], some "404 Not Found, call 2".toList⟩] := by decide
  obtain ⟨h1, h2⟩ := C19_error_only_when_every_resolution_failed exampleEnv exampleAPIAllMissing
    (exampleModel State.StateResolving) 0 (by decide) (by rw [hres]; decide)
  have hall : ∀ r ∈ resolveResults exampleAPIAllMissing
      (exampleModel State.StateResolving).githubClient
      (exampleModel State.StateResolving).actions 0, r.Error ≠ none := by
    rw [hres]; decide
  refine ⟨h1.mpr hall, ?_⟩
  rw [(h2 hall).1, hres]
  rfl

set_option maxRecDepth 100000 in
/-- C20 fails as stated: for `actions/cache/restore@v4` the parser returns the
Repo `cache/restore`. -/
theorem C20_repo_of_a_subdirectory_action_has_a_slash :
    (parseActionString "actions/cache/restore@v4".toList "ci.yml".toList 1).map
        (fun a => (a.Owner, a.Repo, a.Ref))
      = some ("actions".toList, "cache/restore".toList, "v4".toList) ∧
    '/' ∈ "cache/restore".toList := by
  refine ⟨by decide, by decide⟩

/-- C20, amended: for an action returned by `parseActionString`, the Owner is
not empty and holds no `/`, and the Repo is not empty and holds no `@`. -/
theorem C20_owner_has_no_slash_and_repo_has_no_at
    (uses filePath : Str) (lineNum : Int) (a : ActionReference)
    (hparse : parseActionString uses filePath lineNum = some a) :
    '/' ∉ a.Owner ∧ '@' ∉ a.Repo ∧ a.Owner ≠ [] ∧ a.Repo ≠ [] := by
  obtain ⟨hre, -⟩ := parseActionString_eq_some uses filePath lineNum a hparse
  obtain ⟨-, ho, hso, hr, hsr, -, -⟩ := (actionRegex_eq_some _ _ _ _).mp hre
  exact ⟨hso, hsr, ho, hr⟩

set_option maxRecDepth 100000 in
/-- Witness of C20: `actions/cache/restore@v4`. -/
theorem C20_owner_has_no_slash_and_repo_has_no_at_witness :
    '/' ∉ "actions".toList ∧ '@' ∉ "cache/restore".toList ∧ "actions".toList ≠ [] ∧
      "cache/restore".toList ≠ [] :=
  C20_owner_has_no_slash_and_repo_has_no_at "actions/cache/restore@v4".toList "ci.yml".toList 1
    ⟨"actions".toList, "cache/restore".toList, "v4".toList, 1, "ci.yml".toList,
      "actions/cache/restore@v4".toList, false⟩ (by decide)

/-! ## The order of backup and rewrite -/

theorem rewriteFiles_log {ω : Type} (b : Backend ω) (replacements : List Replacement)
    (files : List Str) (w : ω) (log : List ProcessEvent) :
    ∃ events : List ProcessEvent,
      (rewriteFiles b replacements files w log).2.2 = log ++ events ∧
        ∀ ev ∈ events, ∃ file ok, ev = ProcessEvent.rewrite file ok := by
  induction files generalizing w log with
  | nil => exact ⟨[], by simp [rewriteFiles], by simp⟩
  | cons file rest ih =>
    cases hcall : b.ReplaceActionsInFile w file
        (replacements.filter (fun repl => repl.Action.FilePath = file)) with
    | mk err w' =>
      cases err with
      | some e =>
        refine ⟨[ProcessEvent.rewrite file false], by simp [rewriteFiles, hcall], ?_⟩
        intro ev hev
        exact ⟨file, false, by simpa using hev⟩
      | none =>
        obtain ⟨events, h1, h2⟩ := ih w' (log ++ [ProcessEvent.rewrite file true])
        refine ⟨ProcessEvent.rewrite file true :: events, ?_, ?_⟩
        · simp only [rewriteFiles, hcall]
          rw [h1]; simp
        · intro ev hev
          rcases List.mem_cons.mp hev with rfl | hev
          · exact ⟨file, true, rfl⟩
          · exact h2 ev hev

theorem applyReplacements_log {ω : Type} (b : Backend ω) (m : Model) (backupPath : Str) (w : ω)
    (log : List ProcessEvent) :
    ∃ events : List ProcessEvent,
      (applyReplacements b m backupPath w log).log = log ++ events ∧
        (∀ ev ∈ events, ∃ file ok, ev = ProcessEvent.rewrite file ok) ∧
        (m.dryRun = true → events = []) := by
  unfold applyReplacements
  cases hdry : m.dryRun with
  | true => exact ⟨[], by simp, by simp, fun _ => rfl⟩
  | false =>
    obtain ⟨events, h1, h2⟩ := rewriteFiles_log b m.replacements
      (b.rangeOrder (m.replacements.map (fun repl => repl.Action.FilePath)).eraseDups) w log
    refine ⟨events, ?_, h2, by simp⟩
    simp only [Bool.not_false, if_true]
    split <;> rename_i heq <;> rw [heq] at h1 <;> exact h1

/-- C11: in the calls that `processActions` makes, a call of
`ReplaceActionsInFile` occurs only when `dryRun` is false and either `noBackup`
is true or the first call was a `CreateBackup` of the selected files that
returned without error; when `CreateBackup` fails the message carries its error
and no file is rewritten; in dry-run mode no call is made at all, the world is
left as it was and the reported backup path is empty. -/
theorem C11_no_rewrite_before_backup_is_done
    {ω : Type} (b : Backend ω) (m : Model) (w : ω) :
    (∀ (i : Nat) (file : Str) (ok : Bool),
        (processActions b m w).log[i]? = some (ProcessEvent.rewrite file ok) →
        m.dryRun = false ∧
          (m.noBackup = true ∨
            (0 < i ∧ (processActions b m w).log[0]? = some (ProcessEvent.backup true) ∧
              ∃ backupPath, (b.CreateBackup w m.selectedFiles).1 = .ok backupPath))) ∧
      (∀ e : Str, m.dryRun = false → m.noBackup = false →
        (b.CreateBackup w m.selectedFiles).1 = .error e →
        (processActions b m w).msg = Msg.processCompleteMsg [] (some e) ∧
          (processActions b m w).log = [ProcessEvent.backup false] ∧
          (processActions b m w).world = (b.CreateBackup w m.selectedFiles).2) ∧
      (m.dryRun = true →
        (processActions b m w).log = [] ∧ (processActions b m w).world = w ∧
          (processActions b m w).msg = Msg.processCompleteMsg [] none) := by
  refine ⟨?_, ?_, ?_⟩
  · intro i file ok hi
    cases hdry : m.dryRun with
    | true =>
      exfalso
      have : (processActions b m w).log = [] := by
        simp [processActions, applyReplacements, hdry]
      rw [this] at hi
      simp at hi
    | false =>
      refine ⟨rfl, ?_⟩
      cases hnb : m.noBackup with
      | true => exact Or.inl rfl
      | false =>
        right
        cases hcb : b.CreateBackup w m.selectedFiles with
        | mk res w' =>
          cases res with
          | error e =>
            have : (processActions b m w).log = [ProcessEvent.backup false] := by
              simp [processActions, hdry, hnb, hcb]
            rw [this] at hi
            cases i with
            | zero => simp at hi
            | succ i => simp at hi
          | ok backupPath =>
            have hpass : processActions b m w
                = applyReplacements b m backupPath w' [ProcessEvent.backup true] := by
              simp [processActions, hdry, hnb, hcb]
            obtain ⟨events, h1, -, -⟩ :=
              applyReplacements_log b m backupPath w' [ProcessEvent.backup true]
            rw [hpass, h1] at hi ⊢
            refine ⟨?_, by simp, backupPath, rfl⟩
            cases i with
            | zero => simp at hi
            | succ i => exact Nat.succ_pos i
  · intro e hdry hnb hcb
    cases hcb' : b.CreateBackup w m.selectedFiles with
    | mk res w' =>
      rw [hcb'] at hcb
      simp only at hcb
      subst hcb
      simp [processActions, hdry, hnb, hcb']
  · intro hdry
    simp [processActions, applyReplacements, hdry]

set_option maxRecDepth 100000 in
/-- Witness of C11: one workflow file with one replacement; the backup is made
first, then the file is rewritten, and the snapshot holds the file as it was. -/
theorem C11_no_rewrite_before_backup_is_done_witness :
    (processActions (diskBackend "20240101-120000".toList) (exampleProcessModel false false)
        exampleProcessDisk).log
      = [ProcessEvent.backup true, ProcessEvent.rewrite ".github/workflows/ci.yml".toList true] ∧
    (processActions (diskBackend "20240101-120000".toList) (exampleProcessModel false false)
        exampleProcessDisk).msg
      = Msg.processCompleteMsg ".github/workflows/.backup-20240101-120000".toList none ∧
    readFile
        (processActions (diskBackend "20240101-120000".toList) (exampleProcessModel false false)
          exampleProcessDisk).world
        (splitPath ".github/workflows/.backup-20240101-120000/ci.yml".toList)
      = some "      - uses: actions/checkout@v4\n".toList ∧
    readFile
        (processActions (diskBackend "20240101-120000".toList) (exampleProcessModel false false)
          exampleProcessDisk).world
        (splitPath ".github/workflows/ci.yml".toList)
      = some ("      - uses: actions/checkout@8f4b7f84864484a7bf31766abe9204da3cbe65b3 # v4\n").toList ∧
    ((exampleProcessModel false false).dryRun = false ∧
      ((exampleProcessModel false false).noBackup = true ∨
        (0 < 1 ∧
          (processActions (diskBackend "20240101-120000".toList) (exampleProcessModel false false)
            exampleProcessDisk).log[0]? = some (ProcessEvent.backup true) ∧
          ∃ backupPath,
            ((diskBackend "20240101-120000".toList).CreateBackup exampleProcessDisk
              (exampleProcessModel false false).selectedFiles).1 = .ok backupPath))) :=
  ⟨by decide, by decide, by decide, by decide,
    (C11_no_rewrite_before_backup_is_done (diskBackend "20240101-120000".toList)
      (exampleProcessModel false false) exampleProcessDisk).1 1
      ".github/workflows/ci.yml".toList true (by decide)⟩

/-! ## Snapshots -/

set_option maxRecDepth 100000 in
/-- C12, on the code: the scan returns `.github/workflows/ci.yml` and
`.github/workflows/sub/ci.yml`; `CreateBackup` of the two succeeds, and the
snapshot holds one entry `ci.yml`, with the content of the second file: the
content of the first file is not in the snapshot. -/
theorem C12_files_of_the_same_name_share_one_snapshot_entry :
    (FindWorkflowFiles exampleTreeDisk).toOption
      = some [splitPath ".github/workflows/ci.yml".toList,
          splitPath ".github/workflows/sub/ci.yml".toList] ∧
    readFile exampleTreeDisk (splitPath ".github/workflows/ci.yml".toList) = some "top".toList ∧
    readFile exampleTreeDisk (splitPath ".github/workflows/sub/ci.yml".toList)
      = some "nested".toList ∧
    (CreateBackup exampleTreeDisk "20240101-120000".toList
        [splitPath ".github/workflows/ci.yml".toList,
          splitPath ".github/workflows/sub/ci.yml".toList]).1.toOption
      = some (splitPath ".github/workflows/.backup-20240101-120000".toList) ∧
    (readDir
        (CreateBackup exampleTreeDisk "20240101-120000".toList
          [splitPath ".github/workflows/ci.yml".toList,
            splitPath ".github/workflows/sub/ci.yml".toList]).2
        (splitPath ".github/workflows/.backup-20240101-120000".toList)).map
        (fun entries => entries.map (fun entry => entry.1))
      = some ["ci.yml".toList] ∧
    readFile
        (CreateBackup exampleTreeDisk "20240101-120000".toList
          [splitPath ".github/workflows/ci.yml".toList,
            splitPath ".github/workflows/sub/ci.yml".toList]).2
        (splitPath ".github/workflows/.backup-20240101-120000/ci.yml".toList)
      = some "nested".toList := by
  refine ⟨by decide, by decide, by decide, by decide, by decide, by decide⟩

theorem count_foldl_eq_countP (es : List (Str × Node)) (n : Int) :
    es.foldl (fun n entry => if !entry.2.isDir && isWorkflowExt entry.1 then n + 1 else n) n
      = n + (es.countP (fun entry => !entry.2.isDir && isWorkflowExt entry.1) : Nat) := by
  induction es generalizing n with
  | nil => simp
  | cons e es ih =>
    rw [List.foldl_cons, ih, List.countP_cons]
    cases hb : (!e.2.isDir && isWorkflowExt e.1)
    · simp
    · simp only [if_true, Nat.cast_add, Nat.cast_one]
      omega

theorem validateBackup_of_readDir (d : Disk) (backupPath : DiskPath)
    (entries : List (Str × Node)) (hread : readDir d backupPath = some entries) :
    validateBackup d backupPath =
      if workflowCount entries = 0 then .error "no workflow files found in backup".toList
      else .ok
        { Path := pathString backupPath
          Timestamp :=
            if (SplitSep '-' (Base backupPath)).length ≥ 2 then
              JoinSep '-' ((SplitSep '-' (Base backupPath)).drop 1)
            else []
          FileCount := (workflowCount entries : Nat) } := by
  unfold validateBackup
  simp only [hread]
  rw [count_foldl_eq_countP]
  simp only [zero_add, workflowCount]
  by_cases h0 : entries.countP (fun entry => !entry.2.isDir && isWorkflowExt entry.1) = 0
  · rw [h0]; simp
  · rw [if_neg h0, if_neg]
    exact_mod_cast h0

theorem validateBackup_of_not_dir (d : Disk) (backupPath : DiskPath)
    (hread : readDir d backupPath = none) :
    validateBackup d backupPath = .error "failed to read backup directory".toList := by
  unfold validateBackup
  simp only [hread]

/-- C13: for a path that is empty, that cannot be read as a directory, or whose
directory holds no regular file with the extension `.yml` or `.yaml`,
`RestoreBackup` returns an error and leaves the disk as it was. -/
theorem C13_restore_validates_before_it_copies (d : Disk) (backupPath : DiskPath)
    (h : backupPath = [] ∨ readDir d backupPath = none ∨
      ∃ entries, readDir d backupPath = some entries ∧
        ∀ entry ∈ entries, ¬ (entry.2.isDir = false ∧ isWorkflowExt entry.1 = true)) :
    (RestoreBackup d backupPath).1 ≠ none ∧ (RestoreBackup d backupPath).2 = d := by
  by_cases hp : backupPath = []
  · simp [RestoreBackup, hp]
  · rcases h with h | h | ⟨entries, hread, hnone⟩
    · exact absurd h hp
    · simp [RestoreBackup, hp, validateBackup_of_not_dir d backupPath h]
    · have hzero : workflowCount entries = 0 := by
        unfold workflowCount
        rw [List.countP_eq_zero]
        intro e he hb
        simp only [Bool.and_eq_true, Bool.not_eq_true'] at hb
        exact hnone e he hb
      simp [RestoreBackup, hp, validateBackup_of_readDir d backupPath entries hread, hzero]

set_option maxRecDepth 100000 in
/-- Witness of C13: the directory `.backup-empty` holds no workflow file. -/
theorem C13_restore_validates_before_it_copies_witness :
    (RestoreBackup exampleTreeDisk (splitPath ".github/workflows/.backup-empty".toList)).1 ≠ none ∧
      (RestoreBackup exampleTreeDisk (splitPath ".github/workflows/.backup-empty".toList)).2
        = exampleTreeDisk :=
  C13_restore_validates_before_it_copies exampleTreeDisk
    (splitPath ".github/workflows/.backup-empty".toList)
    (Or.inr (Or.inr ⟨[("notes.txt".toList, .file [])], by rfl, by decide⟩))

set_option maxRecDepth 100000 in
/-- C14, on the code: for a path that does not exist `DeleteBackup` returns no
error, where `RestoreBackup` returns one; and for the directory `.github`,
which `validateBackup` rejects, it returns no error and removes the directory
with the workflows in it. -/
theorem C14_delete_accepts_missing_and_invalid_paths :
    lookup exampleTreeDisk (splitPath ".github/workflows/.backup-20990101-000000".toList) = none ∧
    (DeleteBackup exampleTreeDisk
        (splitPath ".github/workflows/.backup-20990101-000000".toList)).1 = none ∧
    (RestoreBackup exampleTreeDisk
        (splitPath ".github/workflows/.backup-20990101-000000".toList)).1
      = some "invalid backup: failed to read backup directory".toList ∧
    (validateBackup exampleTreeDisk (splitPath ".github".toList)).toOption = none ∧
    (DeleteBackup exampleTreeDisk (splitPath ".github".toList)).1 = none ∧
    (FindWorkflowFiles exampleTreeDisk).toOption
      = some [splitPath ".github/workflows/ci.yml".toList,
          splitPath ".github/workflows/sub/ci.yml".toList] ∧
    (FindWorkflowFiles
        (DeleteBackup exampleTreeDisk (splitPath ".github".toList)).2).toOption
      = none := by
  refine ⟨by rfl, by decide, by decide, by decide, by decide, by decide, by decide⟩

/-! ## Listing the snapshots -/

theorem findEntry_mem (name : Str) (entries : List (Str × Node)) (node : Node)
    (h : findEntry name entries = some node) : (name, node) ∈ entries := by
  induction entries with
  | nil => simp [findEntry] at h
  | cons e es ih =>
    obtain ⟨n, x⟩ := e
    simp only [findEntry] at h
    split at h
    · rename_i hn
      simp only [Option.some.injEq] at h
      subst hn; subst h
      exact List.mem_cons_self _ _
    · exact List.mem_cons_of_mem _ (ih h)

theorem lookup_append_singleton (es : List (Str × Node)) (p : DiskPath) (name : Str)
    (entries : List (Str × Node)) (h : lookup es p = some (.dir entries)) :
    lookup es (p ++ [name]) = findEntry name entries := by
  induction p generalizing es with
  | nil => simp [lookup] at h
  | cons c rest ih =>
    simp only [lookup] at h
    cases hc : findEntry c es with
    | none => rw [hc] at h; cases h
    | some node =>
      rw [hc] at h
      cases rest with
      | nil =>
        simp only [Option.some.injEq] at h
        subst h
        simp only [List.cons_append, List.nil_append, lookup, hc]
        cases findEntry name entries <;> rfl
      | cons c' rest' =>
        cases node with
        | file content => cases h
        | dir es' =>
          simp only at h
          have := ih es' h
          simp only [List.cons_append, lookup, hc] at this ⊢
          exact this

theorem readDir_child (d : Disk) (p : DiskPath) (name : Str) (entries : List (Str × Node))
    (h : readDir d p = some entries) (es : List (Str × Node)) :
    readDir d (p ++ [name]) = some es ↔ findEntry name entries = some (.dir es) := by
  have hl : lookup d p = some (.dir entries) := by
    unfold readDir at h
    cases hlp : lookup d p with
    | none => rw [hlp] at h; cases h
    | some node =>
      rw [hlp] at h
      cases node with
      | file c => cases h
      | dir es' => simp only [Option.some.injEq] at h; rw [h]
  unfold readDir
  rw [lookup_append_singleton d p name entries hl]
  cases findEntry name entries with
  | none => simp
  | some node =>
    cases node with
    | file c => simp
    | dir es' => simp

theorem Base_append_singleton (p : DiskPath) (name : Str) : Base (p ++ [name]) = name := by
  simp [Base]

theorem listBackups_foldl (d : Disk) (entries : List (Str × Node)) (acc : List BackupInfo) :
    entries.foldl
        (fun backups entry =>
          if entry.2.isDir && ".backup-".toList.isPrefixOf entry.1 then
            match validateBackup d (workflowDir ++ [entry.1]) with
            | .ok info => backups ++ [info]
            | .error _ => backups
          else backups) acc
      = acc ++ entries.filterMap (fun entry =>
          if entry.2.isDir && ".backup-".toList.isPrefixOf entry.1 then
            (validateBackup d (workflowDir ++ [entry.1])).toOption
          else none) := by
  induction entries generalizing acc with
  | nil => simp
  | cons e es ih =>
    rw [List.foldl_cons, ih, List.filterMap_cons]
    cases hcond : (e.2.isDir && ".backup-".toList.isPrefixOf e.1)
    · simp
    · simp only [if_true]
      cases hv : validateBackup d (workflowDir ++ [e.1]) with
      | error err => simp [Except.toOption]
      | ok info => simp [Except.toOption]

/-- C15: when the workflow directory can be listed, `ListBackups` returns
without error, and a snapshot is in the list exactly when it is the one of a
sub-directory of the workflow directory whose name starts with `.backup-` and
which holds at least one regular file with the extension `.yml` or `.yaml`; its
`FileCount` is the number of those files.  So a sub-directory with the prefix
and no such file is left out, and every snapshot listed has a `FileCount` of at
least 1. -/
theorem C15_list_backups_returns_the_valid_snapshots
    (d : Disk) (entries : List (Str × Node)) (hread : readDir d workflowDir = some entries) :
    ∃ backups : List BackupInfo,
      ListBackups d = .ok backups ∧
      (∀ info : BackupInfo, info ∈ backups ↔
        ∃ (name : Str) (es : List (Str × Node)),
          findEntry name entries = some (.dir es) ∧ ".backup-".toList <+: name ∧
            1 ≤ workflowCount es ∧
            info = { Path := pathString (workflowDir ++ [name])
                     Timestamp := backupTimestamp name
                     FileCount := (workflowCount es : Nat) }) ∧
      (∀ info ∈ backups, 1 ≤ info.FileCount) ∧
      backups.length ≤ entries.length := by
  have hl : ListBackups d = .ok (entries.filterMap (fun entry =>
      if entry.2.isDir && ".backup-".toList.isPrefixOf entry.1 then
        (validateBackup d (workflowDir ++ [entry.1])).toOption
      else none)) := by
    simp only [ListBackups, hread]
    rw [listBackups_foldl, List.nil_append]
  have hiff : ∀ info : BackupInfo, info ∈ entries.filterMap (fun entry =>
      if entry.2.isDir && ".backup-".toList.isPrefixOf entry.1 then
        (validateBackup d (workflowDir ++ [entry.1])).toOption
      else none) ↔
      ∃ (name : Str) (es : List (Str × Node)),
        findEntry name entries = some (.dir es) ∧ ".backup-".toList <+: name ∧
          1 ≤ workflowCount es ∧
          info = { Path := pathString (workflowDir ++ [name])
                   Timestamp := backupTimestamp name
                   FileCount := (workflowCount es : Nat) } := by
    intro info
    rw [List.mem_filterMap]
    constructor
    · rintro ⟨⟨name, node⟩, hmem, hsome⟩
      simp only at hsome
      split at hsome
      · rename_i hcond
        simp only [Bool.and_eq_true, List.isPrefixOf_iff_prefix] at hcond
        cases hrd : readDir d (workflowDir ++ [name]) with
        | none =>
          rw [validateBackup_of_not_dir d _ hrd] at hsome
          simp [Except.toOption] at hsome
        | some es =>
          rw [validateBackup_of_readDir d _ es hrd] at hsome
          by_cases h0 : workflowCount es = 0
          · rw [if_pos h0] at hsome
            simp [Except.toOption] at hsome
          · rw [if_neg h0] at hsome
            simp only [Except.toOption, Option.some.injEq] at hsome
            refine ⟨name, es, (readDir_child d workflowDir name entries hread es).mp hrd,
              hcond.2, Nat.one_le_iff_ne_zero.mpr h0, ?_⟩
            rw [← hsome, Base_append_singleton]
            rfl
      · cases hsome
    · rintro ⟨name, es, hfind, hprefix, hcount, rfl⟩
      refine ⟨(name, .dir es), findEntry_mem name entries _ hfind, ?_⟩
      have hrd := (readDir_child d workflowDir name entries hread es).mpr hfind
      have hcond : ((Node.dir es).isDir && ".backup-".toList.isPrefixOf name) = true := by
        rw [Bool.and_eq_true]
        exact ⟨rfl, List.isPrefixOf_iff_prefix.mpr hprefix⟩
      simp only [hcond, if_true]
      rw [validateBackup_of_readDir d _ es hrd, if_neg (by omega), Base_append_singleton]
      rfl
  refine ⟨_, hl, hiff, ?_, List.length_filterMap_le _ _⟩
  intro info hinfo
  obtain ⟨name, es, -, -, hcount, rfl⟩ := (hiff info).mp hinfo
  simp only
  exact_mod_cast hcount

set_option maxRecDepth 100000 in
/-- Witness of C15: of the two directories with the prefix, the one without a
workflow file is left out. -/
theorem C15_list_backups_returns_the_valid_snapshots_witness :
    (∃ backups : List BackupInfo,
      ListBackups exampleTreeDisk = .ok backups ∧ ∀ info ∈ backups, 1 ≤ info.FileCount) ∧
    (ListBackups exampleTreeDisk).toOption
      = some [{ Path := ".github/workflows/.backup-20230101-000000".toList
                Timestamp := "20230101-000000".toList
                FileCount := 1 }] :=
  ⟨(C15_list_backups_returns_the_valid_snapshots exampleTreeDisk exampleTreeEntries rfl).imp
      fun _ h => ⟨h.1, h.2.2.1⟩,
    by decide⟩

/-! ## The scan of the workflow directory -/

mutual
theorem walkNode_sound : ∀ (path : DiskPath) (n : Node) (p : DiskPath), p ∈ walkNode path n →
    ∃ rel, p = path ++ rel ∧ IsFileAt n rel ∧ isWorkflowExt (Base p) = true ∧
      (rel ≠ [] → ¬ ".backup-".toList <+: Base path) ∧
      ∀ c ∈ rel.dropLast, ¬ ".backup-".toList <+: c
  | path, .file _, p, h => by
    simp only [walkNode] at h
    split at h
    · rename_i hext
      simp only [List.mem_singleton] at h
      subst h
      exact ⟨[], by simp, trivial, hext, by simp, by simp⟩
    · simp at h
  | path, .dir entries, p, h => by
    simp only [walkNode] at h
    split at h
    · simp at h
    · rename_i hpre
      obtain ⟨name, child, rel, hmem, hp, hfile, hext, hanc⟩ := walkEntries_sound path entries p h
      refine ⟨name :: rel, hp, ⟨child, hmem, hfile⟩, hext, ?_, hanc⟩
      intro _ hpr
      exact hpre (List.isPrefixOf_iff_prefix.mpr hpr)
theorem walkEntries_sound : ∀ (path : DiskPath) (entries : List (Str × Node)) (p : DiskPath),
    p ∈ walkEntries path entries →
    ∃ name child rel, (name, child) ∈ entries ∧ p = path ++ name :: rel ∧ IsFileAt child rel ∧
      isWorkflowExt (Base p) = true ∧ ∀ c ∈ (name :: rel).dropLast, ¬ ".backup-".toList <+: c
  | _, [], p, h => by simp [walkEntries] at h
  | path, (name, child) :: rest, p, h => by
    simp only [walkEntries, List.mem_append] at h
    rcases h with h | h
    · obtain ⟨rel, hp, hfile, hext, hself, hanc⟩ := walkNode_sound (path ++ [name]) child p h
      refine ⟨name, child, rel, List.mem_cons_self _ _, by simp [hp], hfile, hext, ?_⟩
      intro c hc
      cases rel with
      | nil => simp at hc
      | cons r rs =>
        rw [List.dropLast_cons₂] at hc
        rcases List.mem_cons.mp hc with rfl | hc
        · have := hself (by simp)
          rwa [Base_append_singleton] at this
        · exact hanc c hc
    · obtain ⟨name', child', rel, hmem, hrest⟩ := walkEntries_sound path rest p h
      exact ⟨name', child', rel, List.mem_cons_of_mem _ hmem, hrest⟩
end

theorem walkEntries_of_mem (path : DiskPath) (entries : List (Str × Node)) (name : Str)
    (child : Node) (p : DiskPath) (hmem : (name, child) ∈ entries)
    (hp : p ∈ walkNode (path ++ [name]) child) : p ∈ walkEntries path entries := by
  induction entries with
  | nil => simp at hmem
  | cons e es ih =>
    obtain ⟨n, x⟩ := e
    simp only [walkEntries, List.mem_append]
    rcases List.mem_cons.mp hmem with h | h
    · simp only [Prod.mk.injEq] at h
      obtain ⟨rfl, rfl⟩ := h
      exact Or.inl hp
    · exact Or.inr (ih h)

theorem walkNode_complete (rel : List Str) : ∀ (path : DiskPath) (n : Node),
    IsFileAt n rel → isWorkflowExt (Base (path ++ rel)) = true →
    (rel ≠ [] → ¬ ".backup-".toList <+: Base path) →
    (∀ c ∈ rel.dropLast, ¬ ".backup-".toList <+: c) → path ++ rel ∈ walkNode path n := by
  induction rel with
  | nil =>
    intro path n hfile hext _ _
    cases n with
    | file content =>
      rw [List.append_nil] at hext ⊢
      simp [walkNode, hext]
    | dir entries => simp [IsFileAt] at hfile
  | cons name rest ih =>
    intro path n hfile hext hself hanc
    cases n with
    | file content => simp [IsFileAt] at hfile
    | dir entries =>
      obtain ⟨child, hmem, hchild⟩ := hfile
      have hpre : ".backup-".toList.isPrefixOf (Base path) = false := by
        rw [Bool.eq_false_iff]
        intro h
        exact hself (by simp) (List.isPrefixOf_iff_prefix.mp h)
      simp only [walkNode, hpre]
      apply walkEntries_of_mem path entries name child _ hmem
      have happ : path ++ name :: rest = (path ++ [name]) ++ rest := by simp
      rw [happ] at hext ⊢
      apply ih (path ++ [name]) child hchild hext
      · intro hne
        rw [Base_append_singleton]
        apply hanc
        cases rest with
        | nil => exact absurd rfl hne
        | cons r rs => rw [List.dropLast_cons₂]; exact List.mem_cons_self _ _
      · intro c hc
        apply hanc
        cases rest with
        | nil => simp at hc
        | cons r rs => rw [List.dropLast_cons₂]; exact List.mem_cons_of_mem _ hc

/-- C16: when `.github/workflows` exists, `FindWorkflowFiles` returns without
error, and a path is returned exactly when it leads from the workflow directory
to a regular file, the extension of its last component is `.yml` or `.yaml`, and
no directory on the way below the workflow directory has a name that starts with
`.backup-`.  So no path inside a directory `.backup-<timestamp>` of the workflow
directory, which is where `CreateBackup` copies the files, is returned. -/
theorem C16_scan_returns_the_workflow_files_outside_snapshots
    (d : Disk) (root : Node) (hroot : lookup d workflowDir = some root) :
    ∃ files : List DiskPath,
      FindWorkflowFiles d = .ok files ∧
      (∀ p : DiskPath, p ∈ files ↔
        ∃ rel, p = workflowDir ++ rel ∧ IsFileAt root rel ∧ isWorkflowExt (Base p) = true ∧
          ∀ c ∈ rel.dropLast, ¬ ".backup-".toList <+: c) ∧
      (∀ (d0 : Disk) (now : Str) (copied : List DiskPath) (dir : DiskPath),
        (CreateBackup d0 now copied).1 = .ok dir →
          dir = workflowDir ++ [".backup-".toList ++ now] ∧
            ∀ (name : Str) (rest : List Str), dir ++ name :: rest ∉ files) := by
  have hiff : ∀ p : DiskPath, p ∈ walkNode workflowDir root ↔
      ∃ rel, p = workflowDir ++ rel ∧ IsFileAt root rel ∧ isWorkflowExt (Base p) = true ∧
        ∀ c ∈ rel.dropLast, ¬ ".backup-".toList <+: c := by
    intro p
    constructor
    · intro h
      obtain ⟨rel, hp, hfile, hext, -, hanc⟩ := walkNode_sound workflowDir root p h
      exact ⟨rel, hp, hfile, hext, hanc⟩
    · rintro ⟨rel, rfl, hfile, hext, hanc⟩
      exact walkNode_complete rel workflowDir root hfile hext (fun _ => by decide) hanc
  refine ⟨walkNode workflowDir root, by simp only [FindWorkflowFiles, hroot], hiff, ?_⟩
  intro d0 now copied dir hdir
  have hd : dir = workflowDir ++ [".backup-".toList ++ now] := by
    unfold CreateBackup at hdir
    simp only at hdir
    split at hdir
    · cases hdir
    · split at hdir
      · cases hdir
      · simp only [Except.ok.injEq] at hdir
        exact hdir.symm
  refine ⟨hd, ?_⟩
  intro name rest hmem
  obtain ⟨rel, hp, -, -, hanc⟩ := (hiff _).mp hmem
  rw [hd, List.append_assoc] at hp
  have hrel := List.append_cancel_left hp
  rw [← hrel] at hanc
  exact hanc (".backup-".toList ++ now) (by simp [List.dropLast_cons₂]) (List.prefix_append _ _)

set_option maxRecDepth 100000 in
/-- Witness of C16: the scan of a disk with two workflows and two directories
with the backup prefix; after a backup of the two workflows the scan returns the
same two paths. -/
theorem C16_scan_returns_the_workflow_files_outside_snapshots_witness :
    (∃ files : List DiskPath,
      FindWorkflowFiles exampleTreeDisk = .ok files ∧
        ∀ (name : Str) (rest : List Str),
          (workflowDir ++ [".backup-".toList ++ "20230101-000000".toList]) ++ name :: rest
            ∉ files) ∧
    (FindWorkflowFiles exampleTreeDisk).toOption
      = some [splitPath ".github/workflows/ci.yml".toList,
          splitPath ".github/workflows/sub/ci.yml".toList] ∧
    (FindWorkflowFiles
        (CreateBackup exampleTreeDisk "20240101-120000".toList
          [splitPath ".github/workflows/ci.yml".toList,
            splitPath ".github/workflows/sub/ci.yml".toList]).2).toOption
      = some [splitPath ".github/workflows/ci.yml".toList,
          splitPath ".github/workflows/sub/ci.yml".toList] :=
  ⟨(C16_scan_returns_the_workflow_files_outside_snapshots exampleTreeDisk
      (.dir exampleTreeEntries) rfl).imp
      fun _ h => ⟨h.1, (h.2.2 [] "20230101-000000".toList [] _ rfl).2⟩,
    by decide, by decide⟩

/-! ## Values the parser skips, lines the replacer rewrites, and the selection -/

theorem mem_of_mem_TrimSpace (c : Char) (s : Str) (h : c ∈ TrimSpace s) : c ∈ s := by
  unfold TrimSpace at h
  rw [List.mem_reverse] at h
  have h1 := (List.dropWhile_sublist isSpace).subset h
  rw [List.mem_reverse] at h1
  exact (List.dropWhile_sublist isSpace).subset h1

set_option maxRecDepth 100000 in
/-- C21 fails as stated: a Docker reference with a digest and a relative path
with an `@` in it match `owner/repo@ref`, and the parser returns an action for
them. -/
theorem C21_docker_digest_and_path_with_at_are_parsed :
    (parseActionString "docker://alpine@sha256:0a4eaa0eecf5f8c050e5bba433f58c052be7587ee8af3e8b3910ef9ab5fbe9f5".toList
        "ci.yml".toList 1).map (fun a => (a.Owner, a.Repo, a.Ref, a.IsPinned))
      = some ("docker:".toList, "/alpine".toList,
          "sha256:0a4eaa0eecf5f8c050e5bba433f58c052be7587ee8af3e8b3910ef9ab5fbe9f5".toList, false) ∧
    (parseActionString "./.github/actions/build@v1".toList "ci.yml".toList 1).map
        (fun a => (a.Owner, a.Repo, a.Ref, a.IsPinned))
      = some (".".toList, ".github/actions/build".toList, "v1".toList, false) ∧
    (parseActionString "../shared/setup@main".toList "ci.yml".toList 1).map
        (fun a => (a.Owner, a.Repo, a.Ref, a.IsPinned))
      = some ("..".toList, "shared/setup".toList, "main".toList, false) := by
  refine ⟨by decide, by decide, by decide⟩

/-- C21, amended: for a uses value that begins with `./`, `../` or `docker://`
and holds no `@`, `parseActionString` returns no action. -/
theorem C21_local_and_docker_values_without_at_are_skipped
    (uses filePath : Str) (lineNum : Int)
    (_hstart : "./".toList <+: uses ∨ "../".toList <+: uses ∨ "docker://".toList <+: uses)
    (hat : '@' ∉ uses) :
    parseActionString uses filePath lineNum = none := by
  cases h : parseActionString uses filePath lineNum with
  | none => rfl
  | some a =>
    exfalso
    obtain ⟨hre, -⟩ := parseActionString_eq_some uses filePath lineNum a h
    have hshape := ((actionRegex_eq_some _ _ _ _).mp hre).1
    apply hat
    apply mem_of_mem_TrimSpace
    rw [hshape]
    simp

set_option maxRecDepth 100000 in
/-- Witness of C21: a local action and a Docker image with a tag. -/
theorem C21_local_and_docker_values_without_at_are_skipped_witness :
    parseActionString "./.github/actions/build".toList "ci.yml".toList 1 = none ∧
      parseActionString "docker://alpine:3.19".toList "ci.yml".toList 2 = none :=
  ⟨C21_local_and_docker_values_without_at_are_skipped "./.github/actions/build".toList
      "ci.yml".toList 1 (Or.inl (by decide)) (by decide),
    by decide⟩

set_option maxRecDepth 100000 in
/-- C22 fails as stated: the loop over the lines has no `break`, and with one
replacement both lines that hold `actions/checkout@v4` are rewritten. -/
theorem C22_every_matching_line_is_rewritten_example :
    writtenContent
        (ReplaceActionsInFile
          (exampleFS ("  build:\n      - uses: actions/checkout@v4\n" ++
            "  test:\n      - uses: actions/checkout@v4\n").toList)
          "ci.yml".toList [⟨checkoutV4, exampleSHA, "v4".toList⟩])
        "ci.yml".toList
      = some ("  build:\n" ++
          "      - uses: actions/checkout@8f4b7f84864484a7bf31766abe9204da3cbe65b3 # v4\n" ++
          "  test:\n" ++
          "      - uses: actions/checkout@8f4b7f84864484a7bf31766abe9204da3cbe65b3 # v4\n").toList := by
  decide

/-- C22, amended: with a single replacement, `ReplaceActionsInFile` rewrites
every line that contains the action's FullUses, the first one and the later ones
alike: the leftmost occurrence of `Owner/Repo@Ref` on the line, when there is
one, is replaced by `Owner/Repo@SHA # Version`.  A line that does not contain
the FullUses is written as it was. -/
theorem C22_single_replacement_rewrites_every_matching_line
    (fs : FileSystem) (path content : Str) (repl : Replacement)
    (hread : fs.files path = some content) (hwrite : fs.writable path = true) :
    ∃ (fs' : FileSystem) (lines' : List Str),
      ReplaceActionsInFile fs path [repl] = .ok fs' ∧
      fs'.files path = some (Join lines') ∧ lines'.length = (Split content).length ∧
      ∀ (i : Nat) (L : Str), (Split content)[i]? = some L →
        (Contains L repl.Action.FullUses = false → lines'[i]? = some L) ∧
        (Contains L repl.Action.FullUses = true →
          (¬ oldUses repl <:+: L ∧ lines'[i]? = some L) ∨
          ∃ pre post, L = pre ++ oldUses repl ++ post ∧
            (∀ k, k < pre.length → ¬ oldUses repl <+: L.drop k) ∧
            lines'[i]? = some (pre ++ newUses repl ++ post)) := by
  refine ⟨_, replaceLines [repl] (Split content),
    ReplaceActionsInFile_ok fs path content _ hread hwrite, write_files_self _ _ _,
    replaceLines_length _ _, ?_⟩
  intro i L hL
  have hline : (replaceLines [repl] (Split content))[i]? = some (replaceLine repl L) := by
    rw [replaceLines_eq_map, List.getElem?_map, hL]
    simp
  rw [hline]
  refine ⟨fun hc => by simp [replaceLine, hc], fun hc => ?_⟩
  cases hold : Contains L (oldUses repl) with
  | false =>
    left
    refine ⟨(Contains_false_iff _ _).mp hold, ?_⟩
    simp [replaceLine, hc, Replace1_of_not_Contains _ _ _ hold]
  | true =>
    right
    obtain ⟨pre, post, h1, h2, h3⟩ := Replace1_spec L (oldUses repl) (newUses repl) hold
    exact ⟨pre, post, h1, h2, by simp [replaceLine, hc, h3]⟩

set_option maxRecDepth 100000 in
/-- Witness of C22: a file of four lines, two of them with the reference. -/
theorem C22_single_replacement_rewrites_every_matching_line_witness :
    ∃ (fs' : FileSystem) (lines' : List Str),
      ReplaceActionsInFile
          (exampleFS ("  build:\n      - uses: actions/checkout@v4\n" ++
            "  test:\n      - uses: actions/checkout@v4").toList)
          "ci.yml".toList [⟨checkoutV4, exampleSHA, "v4".toList⟩] = .ok fs' ∧
        fs'.files "ci.yml".toList = some (Join lines') ∧ lines'.length = 4 ∧
        lines'[2]? = some "  test:".toList := by
  obtain ⟨fs', lines', h1, h2, h3, h4⟩ := C22_single_replacement_rewrites_every_matching_line
    (exampleFS ("  build:\n      - uses: actions/checkout@v4\n" ++
      "  test:\n      - uses: actions/checkout@v4").toList)
    "ci.yml".toList ("  build:\n      - uses: actions/checkout@v4\n" ++
      "  test:\n      - uses: actions/checkout@v4").toList
    ⟨checkoutV4, exampleSHA, "v4".toList⟩ (by decide) rfl
  refine ⟨fs', lines', h1, h2, ?_, ?_⟩
  · rw [h3]; decide
  · exact (h4 2 "  test:".toList (by decide)).1 (by decide)

/-- C23: in state `FileSelection`, with a non-empty `workflowFiles` that the
list items show, the enter key moves the state to `Scanning`, not to `Error`;
`selectedFiles` becomes the titles of the checked items in list order, or all of
`workflowFiles` when no item is checked, and the scan of those files is
dispatched. -/
theorem C23_enter_in_file_selection_starts_the_scan
    (env : Env) (m : Model)
    (hstate : m.state = State.StateFileSelection)
    (hne : m.workflowFiles ≠ [])
    (hitems : m.fileList.items.map (fun item => item.title) = m.workflowFiles) :
    (Update env m (Msg.KeyMsg "enter".toList)).1.state = State.StateScanning ∧
      (Update env m (Msg.KeyMsg "enter".toList)).1.state ≠ State.StateError ∧
      (Update env m (Msg.KeyMsg "enter".toList)).1.selectedFiles
        = (if (m.fileList.items.filter (fun item => item.checked)) = [] then m.workflowFiles
           else (m.fileList.items.filter (fun item => item.checked)).map (fun item => item.title)) ∧
      (Update env m (Msg.KeyMsg "enter".toList)).1.selectedFiles ≠ [] ∧
      (Update env m (Msg.KeyMsg "enter".toList)).1.selectedFiles.Sublist m.workflowFiles ∧
      (Update env m (Msg.KeyMsg "enter".toList)).2
        = Cmd.Batch Cmd.spinnerTick
            (Cmd.scanFiles (Update env m (Msg.KeyMsg "enter".toList)).1) := by
  have hsel : getSelectedFiles m
      = (if (m.fileList.items.filter (fun item => item.checked)) = [] then m.workflowFiles
         else (m.fileList.items.filter (fun item => item.checked)).map (fun item => item.title)) := by
    unfold getSelectedFiles
    by_cases h : m.fileList.items.filter (fun item => item.checked) = []
    · simp [h]
    · simp [h]
  have hselne : getSelectedFiles m ≠ [] := by
    rw [hsel]
    split
    · exact hne
    · rename_i h
      simpa using h
  have hlen : ¬ (getSelectedFiles m).length = 0 := fun h => hselne (List.length_eq_zero.mp h)
  have hupd : Update env m (Msg.KeyMsg "enter".toList)
      = ({ m with selectedFiles := getSelectedFiles m, state := State.StateScanning },
          Cmd.Batch Cmd.spinnerTick
            (Cmd.scanFiles { m with selectedFiles := getSelectedFiles m,
                                    state := State.StateScanning })) := by
    simp [Update, hstate, handleEnterKey, hlen]
  rw [hupd]
  refine ⟨rfl, by simp, hsel, hselne, ?_, rfl⟩
  show (getSelectedFiles m).Sublist m.workflowFiles
  rw [hsel]
  split
  · exact List.Sublist.refl _
  · rw [← hitems]
    exact (List.filter_sublist _).map _

set_option maxRecDepth 100000 in
/-- Witness of C23: three workflows, the second one unchecked. -/
theorem C23_enter_in_file_selection_starts_the_scan_witness :
    (Update exampleEnv exampleSelectionModel (Msg.KeyMsg "enter".toList)).1.state
      = State.StateScanning ∧
    (Update exampleEnv exampleSelectionModel (Msg.KeyMsg "enter".toList)).1.selectedFiles
      = ["ci.yml".toList, "release.yml".toList] := by
  obtain ⟨h1, -, h3, -⟩ := C23_enter_in_file_selection_starts_the_scan exampleEnv
    exampleSelectionModel rfl (by decide) (by decide)
  refine ⟨h1, ?_⟩
  rw [h3]
  decide

end GhaFreeze
